import Mathlib

/-!
# Verification of the LocalPagesHub page generator

Shallow embedding of `generate_local_pages.py`.  Strings are modelled as
`List Char`; Python string primitives (`strip`, `split`, `join`, `replace`,
`re.sub`, `lower`, slicing) are translated into executable Lean functions
with the same semantics, and each function of the script is translated on
top of them, keeping the source's names.  The batch driver (`main`'s row
loop) is modelled as a pure function from the CSV rows and an abstract
HTTP transport to the list of per-row outcomes.
-/

set_option maxRecDepth 10000

namespace LocalPages

/-- Characters Python's `str.strip()` removes (ASCII whitespace). -/
def isPySpace (c : Char) : Bool :=
  c = ' ' || c = '\t' || c = '\n' || c = '\r' || c = '\x0b' || c = '\x0c'

/-- Python `s.strip()`: drop leading and trailing whitespace. -/
def pyStrip (s : List Char) : List Char :=
  ((s.dropWhile isPySpace).reverse.dropWhile isPySpace).reverse

/-- Boolean prefix test on character lists (`s.startswith(p)`). -/
def isPre : List Char → List Char → Bool
  | [], _ => true
  | _ :: _, [] => false
  | a :: p, b :: s => decide (a = b) && isPre p s

theorem isPre_append_left {p a : List Char} (b : List Char)
    (h : isPre p a = true) : isPre p (a ++ b) = true := by
  induction p generalizing a with
  | nil => simp [isPre]
  | cons x p ih =>
    cases a with
    | nil => simp [isPre] at h
    | cons y a =>
      simp only [isPre, Bool.and_eq_true, decide_eq_true_eq] at h ⊢
      exact ⟨h.1, ih h.2⟩

theorem isPre_length {p s : List Char} (h : isPre p s = true) :
    p.length ≤ s.length := by
  induction p generalizing s with
  | nil => simp
  | cons x p ih =>
    cases s with
    | nil => simp [isPre] at h
    | cons y s =>
      simp only [isPre, Bool.and_eq_true] at h
      simpa using ih h.2

theorem eq_append_of_isPre {p s : List Char} (h : isPre p s = true) :
    s = p ++ s.drop p.length := by
  induction p generalizing s with
  | nil => simp
  | cons x p ih =>
    cases s with
    | nil => simp [isPre] at h
    | cons y s =>
      simp only [isPre, Bool.and_eq_true, decide_eq_true_eq] at h
      simpa [h.1] using ih h.2

theorem isPre_of_append {p a b : List Char} (h : isPre p (a ++ b) = true)
    (hl : p.length ≤ a.length) : isPre p a = true := by
  induction p generalizing a with
  | nil => simp [isPre]
  | cons x p ih =>
    cases a with
    | nil => simp at hl
    | cons y a =>
      simp only [List.cons_append, isPre, Bool.and_eq_true] at h ⊢
      exact ⟨h.1, ih h.2 (by simpa using hl)⟩

theorem isPre_append_split {p a b : List Char} (h : isPre p (a ++ b) = true)
    (hl : a.length ≤ p.length) :
    isPre a p = true ∧ isPre (p.drop a.length) b = true := by
  induction a generalizing p with
  | nil => exact ⟨rfl, by simpa using h⟩
  | cons y a ih =>
    cases p with
    | nil => simp at hl
    | cons x p =>
      simp only [List.cons_append, isPre, Bool.and_eq_true,
        decide_eq_true_eq] at h ⊢
      obtain ⟨h1, h2⟩ := h
      obtain ⟨ha, hb⟩ := ih h2 (by simpa using hl)
      exact ⟨⟨h1.symm, ha⟩, by simpa using hb⟩

theorem isPre_append_self (p b : List Char) : isPre p (p ++ b) = true := by
  induction p with
  | nil => rfl
  | cons x p ih => simpa [isPre]

theorem isPre_refl (p : List Char) : isPre p p = true := by
  simpa using isPre_append_self p []

/-- Does `p` occur as a contiguous substring of `s`? -/
def occursInB (p s : List Char) : Bool :=
  (List.range (s.length + 1)).any fun i => isPre p (s.drop i)

theorem occursInB_of_append (a p b : List Char) :
    occursInB p (a ++ (p ++ b)) = true := by
  have hd : (a ++ (p ++ b)).drop a.length = p ++ b := List.drop_left a (p ++ b)
  have : isPre p ((a ++ (p ++ b)).drop a.length) = true := by
    rw [hd]; exact isPre_append_self p b
  refine (List.any_eq_true).2 ⟨a.length, ?_, this⟩
  simp [List.mem_range, List.length_append]
  omega

/-- Python `dict.get(k, '')` on an association list built from a CSV row. -/
def rowGet (row : List (List Char × List Char)) (k : List Char) : List Char :=
  match row.find? (fun kv => decide (kv.1 = k)) with
  | some kv => kv.2
  | none => []

/-- The required CSV columns, from `main` (line 284) and
`validate_csv_file` (line 227). -/
def requiredFields : List (List Char) :=
  [("service").toList, ("city").toList, ("neighborhood").toList,
   ("price_from").toList]

/-- Row validation from `main` (lines 284-290): collect every required
field whose value, after `strip()`, is empty. -/
def rowMissingFields (row : List (List Char × List Char)) : List (List Char) :=
  requiredFields.filter (fun f => (pyStrip (rowGet row f)).isEmpty)

/-- The example row from the spec:
`{service:"Plumbing", city:"", neighborhood:"Downtown", price_from:"$50"}`. -/
def exampleRow : List (List Char × List Char) :=
  [(("service").toList, ("Plumbing").toList),
   (("city").toList, ("").toList),
   (("neighborhood").toList, ("Downtown").toList),
   (("price_from").toList, ("$50").toList)]

theorem mem_rowMissingFields_iff (row : List (List Char × List Char))
    (f : List Char) :
    f ∈ rowMissingFields row ↔
      f ∈ requiredFields ∧ pyStrip (rowGet row f) = [] := by
  simp [rowMissingFields, List.mem_filter, List.isEmpty_iff]

/-- Python `s.split(sep)` for a nonempty separator, by left-to-right scan
for the leftmost occurrence; `acc` accumulates the current piece.  The
`fuel` argument makes the recursion structural (each step consumes at
least one character, so `s.length` fuel always suffices). -/
def pySplitF (sep : List Char) : Nat → List Char → List Char → List (List Char)
  | _, acc, [] => [acc]
  | 0, acc, s => [acc ++ s]
  | fuel + 1, acc, c :: rest =>
    if sep ≠ [] ∧ isPre sep (c :: rest) = true then
      acc :: pySplitF sep fuel [] ((c :: rest).drop sep.length)
    else
      pySplitF sep fuel (acc ++ [c]) rest

theorem pySplitF_irrel (sep : List Char) :
    ∀ (f1 : Nat) (f2 : Nat) (acc s : List Char), s.length ≤ f1 →
      s.length ≤ f2 → pySplitF sep f1 acc s = pySplitF sep f2 acc s := by
  intro f1
  induction f1 with
  | zero =>
    intro f2 acc s h1 _
    cases s with
    | nil => cases f2 <;> rfl
    | cons c rest => simp at h1
  | succ f1 ih =>
    intro f2 acc s h1 h2
    cases s with
    | nil => cases f2 <;> rfl
    | cons c rest =>
      cases f2 with
      | zero => simp at h2
      | succ f2 =>
        simp only [List.length_cons] at h1 h2
        by_cases hb : sep ≠ [] ∧ isPre sep (c :: rest) = true
        · have hs : 1 ≤ sep.length := by
            cases hsep : sep with
            | nil => exact absurd hsep hb.1
            | cons x xs => simp
          have hd : ((c :: rest).drop sep.length).length ≤ f1 := by
            simp only [List.length_drop, List.length_cons]
            omega
          have hd2 : ((c :: rest).drop sep.length).length ≤ f2 := by
            simp only [List.length_drop, List.length_cons]
            omega
          simp only [pySplitF, if_pos hb]
          rw [ih f2 [] _ hd hd2]
        · simp only [pySplitF, if_neg hb]
          exact ih f2 (acc ++ [c]) rest (by omega) (by omega)

/-- The split scan at canonical fuel. -/
def pySplitGo (sep acc s : List Char) : List (List Char) :=
  pySplitF sep s.length acc s

/-- Python `s.split(sep)`. -/
def pySplit (sep s : List Char) : List (List Char) := pySplitGo sep [] s

/-- Python `sep.join(xs)`. -/
def pyJoin (sep : List Char) : List (List Char) → List Char
  | [] => []
  | x :: xs =>
    match xs with
    | [] => x
    | _ :: _ => x ++ sep ++ pyJoin sep xs

theorem pySplitGo_nil (sep acc : List Char) : pySplitGo sep acc [] = [acc] :=
  rfl

theorem pySplitGo_pos (sep acc : List Char) (c : Char) (rest : List Char)
    (h : sep ≠ []) (hp : isPre sep (c :: rest) = true) :
    pySplitGo sep acc (c :: rest) =
      acc :: pySplitGo sep [] ((c :: rest).drop sep.length) := by
  have hs : 1 ≤ sep.length := by
    cases hsep : sep with
    | nil => exact absurd hsep h
    | cons x xs => simp
  rw [pySplitGo, List.length_cons, pySplitF, if_pos ⟨h, hp⟩, pySplitGo]
  rw [pySplitF_irrel sep rest.length ((c :: rest).drop sep.length).length []
    ((c :: rest).drop sep.length) (by simp; omega) le_rfl]

theorem pySplitGo_neg (sep acc : List Char) (c : Char) (rest : List Char)
    (h : ¬(sep ≠ [] ∧ isPre sep (c :: rest) = true)) :
    pySplitGo sep acc (c :: rest) = pySplitGo sep (acc ++ [c]) rest := by
  rw [pySplitGo, List.length_cons, pySplitF, if_neg h, pySplitGo]

/-- One WordPress REST response, as consumed by `main` (lines 327-344):
the driver reads `status_code` and the JSON fields `id`, `slug`, `link`. -/
structure WpResponse where
  status : Nat
  slug : List Char
  link : List Char
  id : List Char
deriving DecidableEq

/-- One record of `output_log.csv`, as assembled in `main` (lines 336-343). -/
structure LogEntry where
  title : List Char
  slug : List Char
  status : List Char
  url : List Char
  wp_id : List Char
  notes : List Char
deriving DecidableEq

/-- The fixed header record of `write_to_log` (line 254). -/
def logHeader : List (List Char) :=
  [("title").toList, ("slug").toList, ("status").toList, ("url").toList,
   ("wp_id").toList, ("notes").toList]

/-- The CSV record `csv.DictWriter.writerow` emits for one Log Entry:
the entry's values in field-name order. -/
def entryRecord (e : LogEntry) : List (List Char) :=
  [e.title, e.slug, e.status, e.url, e.wp_id, e.notes]

/-- `write_to_log` (lines 248-259).  The log file is modelled as the list
of its CSV records, `none` standing for a file that does not exist yet.
The function opens the file in append mode (creating it if absent),
writes the header record only when the file did not exist, and then
writes exactly one data record. -/
def write_to_log (log_data : LogEntry) (file : Option (List (List (List Char)))) :
    List (List (List Char)) :=
  match file with
  | none => [logHeader, entryRecord log_data]
  | some recs => recs ++ [entryRecord log_data]

/-- C4: the Run Logger preserves the log-file invariant.  On an existing
file the prior records are kept unchanged as a prefix and exactly one
data record is appended (append-only, no header); on a fresh path the
header record is written first, followed by the one data record (2
records); a second call on the result appends one more data record
(3 records) and does not repeat the header. -/
theorem C4_run_logger :
    (∀ (e : LogEntry) (recs : List (List (List Char))),
        write_to_log e (some recs) = recs ++ [entryRecord e] ∧
        (write_to_log e (some recs)).take recs.length = recs) ∧
    (∀ e : LogEntry, write_to_log e none = [logHeader, entryRecord e] ∧
        (write_to_log e none).length = 2) ∧
    (∀ e e' : LogEntry,
        write_to_log e' (some (write_to_log e none)) =
          [logHeader, entryRecord e, entryRecord e'] ∧
        (write_to_log e' (some (write_to_log e none))).length = 3) := by
  refine ⟨fun e recs => ⟨rfl, ?_⟩, fun e => ⟨rfl, rfl⟩, fun e e' => ⟨rfl, rfl⟩⟩
  simp [write_to_log]

/-- C1: the Row Validator returns exactly the set of required fields whose
value is absent or empty after trimming: membership in the missing-fields
collection is equivalent to being a required field whose looked-up value
strips to the empty string (an absent field looks up to `""`).  On the
spec's example row the missing collection is exactly `{city}`.  The
embedding is a pure function, so it has no side effects and does not
mutate its input. -/
theorem C1_row_validator (row : List (List Char × List Char)) :
    (∀ f : List Char,
        f ∈ rowMissingFields row ↔
          f ∈ requiredFields ∧ pyStrip (rowGet row f) = []) ∧
    rowMissingFields exampleRow = [("city").toList] := by
  refine ⟨fun f => mem_rowMissingFields_iff row f, ?_⟩
  decide

/-- Lowercase ASCII letters and digits, the class `[a-z0-9]` of
`create_slug`'s regular expression. -/
def isLowerAlnum (c : Char) : Bool :=
  ('a' ≤ c && c ≤ 'z') || ('0' ≤ c && c ≤ '9')

/-- `re.sub(r'[^a-z0-9]+', '-', s)`: replace every maximal run of
characters outside `[a-z0-9]` with a single hyphen.  Structural on a
`fuel` argument for which the string's length always suffices. -/
def subNonAlnumF : Nat → List Char → List Char
  | _, [] => []
  | 0, s => s
  | fuel + 1, c :: rest =>
    if isLowerAlnum c then c :: subNonAlnumF fuel rest
    else '-' :: subNonAlnumF fuel (rest.dropWhile (fun x => !isLowerAlnum x))

theorem subNonAlnumF_irrel :
    ∀ (f1 f2 : Nat) (s : List Char), s.length ≤ f1 → s.length ≤ f2 →
      subNonAlnumF f1 s = subNonAlnumF f2 s := by
  intro f1
  induction f1 with
  | zero =>
    intro f2 s h1 _
    cases s with
    | nil => cases f2 <;> rfl
    | cons c rest => simp at h1
  | succ f1 ih =>
    intro f2 s h1 h2
    cases s with
    | nil => cases f2 <;> rfl
    | cons c rest =>
      cases f2 with
      | zero => simp at h2
      | succ f2 =>
        simp only [List.length_cons] at h1 h2
        have hdw := (List.dropWhile_sublist (l := rest)
          (p := fun x => !isLowerAlnum x)).length_le
        by_cases hc : isLowerAlnum c = true
        · simp only [subNonAlnumF, if_pos hc]
          rw [ih f2 rest (by omega) (by omega)]
        · simp only [subNonAlnumF, if_neg hc]
          rw [ih f2 (rest.dropWhile (fun x => !isLowerAlnum x))
            (by omega) (by omega)]

/-- The run-replacement at canonical fuel. -/
def subNonAlnum (s : List Char) : List Char := subNonAlnumF s.length s

theorem subNonAlnum_nil : subNonAlnum [] = [] := rfl

theorem subNonAlnum_cons_pos (c : Char) (rest : List Char)
    (h : isLowerAlnum c = true) :
    subNonAlnum (c :: rest) = c :: subNonAlnum rest := by
  rw [subNonAlnum, List.length_cons, subNonAlnumF, if_pos h, subNonAlnum]

theorem subNonAlnum_cons_neg (c : Char) (rest : List Char)
    (h : isLowerAlnum c = false) :
    subNonAlnum (c :: rest) =
      '-' :: subNonAlnum (rest.dropWhile (fun x => !isLowerAlnum x)) := by
  have hdw := (List.dropWhile_sublist (l := rest)
    (p := fun x => !isLowerAlnum x)).length_le
  rw [subNonAlnum, List.length_cons, subNonAlnumF,
    if_neg (by simp [h]), subNonAlnum]
  rw [subNonAlnumF_irrel rest.length
    (rest.dropWhile (fun x => !isLowerAlnum x)).length
    (rest.dropWhile (fun x => !isLowerAlnum x)) (by omega) le_rfl]

/-- Python `s.strip('-')`. -/
def stripDashes (s : List Char) : List Char :=
  ((s.dropWhile (fun c => decide (c = '-'))).reverse.dropWhile
    (fun c => decide (c = '-'))).reverse

/-- `create_slug` (lines 74-88): lowercase
`f"{service} in {neighborhood} {city}"`, replace runs of characters
outside `[a-z0-9]` with single hyphens, strip hyphens from both ends.
Python's `str.lower()` is modelled by `Char.toLower`, which agrees with
it on ASCII; the slug well-formedness property is independent of how
non-ASCII letters lowercase, since anything outside `[a-z0-9]` is
replaced by a hyphen. -/
def create_slug (service neighborhood city : List Char) : List Char :=
  stripDashes (subNonAlnum (List.map Char.toLower
    (service ++ (" in ").toList ++ neighborhood ++ (" ").toList ++ city)))

/-- The page title built in `main` (line 303):
`f"{service} in {neighborhood}, {city}"`. -/
def pageTitle (service neighborhood city : List Char) : List Char :=
  service ++ (" in ").toList ++ neighborhood ++ (", ").toList ++ city

/-- Decision procedure for the spec's regular expression
`^[a-z0-9]+(-[a-z0-9]+)*$`: splitting on `-` yields only nonempty groups
of lowercase alphanumerics (and the string is nonempty). -/
def slugRegexMatch (s : List Char) : Bool :=
  !s.isEmpty &&
    (pySplit (("-").toList) s).all (fun g => !g.isEmpty && g.all isLowerAlnum)

theorem head_dropWhile_false (p : Char → Bool) (l : List Char) (c : Char)
    (h : (l.dropWhile p).head? = some c) : p c = false := by
  induction l with
  | nil => simp [List.dropWhile] at h
  | cons a l ih =>
    rw [List.dropWhile_cons] at h
    by_cases hp : p a = true
    · exact ih (by simpa [hp] using h)
    · have : a = c := by simpa [hp] using h
      subst this
      simpa using hp

theorem dropWhile_eq_drop (p : Char → Bool) (l : List Char) :
    ∃ n, l.dropWhile p = l.drop n := by
  induction l with
  | nil => exact ⟨0, rfl⟩
  | cons a l ih =>
    by_cases hp : p a = true
    · obtain ⟨n, hn⟩ := ih
      exact ⟨n + 1, by simpa [List.dropWhile_cons, hp] using hn⟩
    · exact ⟨0, by simp [List.dropWhile_cons, hp]⟩

theorem stripDashes_eq_drop_take (s : List Char) :
    ∃ n m, stripDashes s = (s.drop n).take m := by
  obtain ⟨n, hn⟩ :=
    dropWhile_eq_drop (fun c => decide (c = '-')) s
  obtain ⟨k, hk⟩ :=
    dropWhile_eq_drop (fun c => decide (c = '-')) (s.drop n).reverse
  refine ⟨n, (s.drop n).length - k, ?_⟩
  rw [stripDashes, hn, hk, List.drop_reverse, List.reverse_reverse]

theorem head_take_ne_nil {l : List Char} {j : Nat} (h : l.take j ≠ []) :
    (l.take j).head? = l.head? := by
  cases l with
  | nil => simp at h
  | cons a l =>
    cases j with
    | zero => simp at h
    | succ j => simp

/-- Every character is a lowercase alphanumeric or a hyphen. -/
def SlugChars (s : List Char) : Prop :=
  ∀ c ∈ s, isLowerAlnum c = true ∨ c = '-'

/-- No two adjacent hyphens. -/
def NoDD (s : List Char) : Prop :=
  List.Chain' (fun a b => ¬(a = '-' ∧ b = '-')) s

theorem ne_dash_of_alnum {c : Char} (h : isLowerAlnum c = true) : c ≠ '-' := by
  intro hc
  subst hc
  simp [isLowerAlnum] at h

theorem subNonAlnum_inv (n : Nat) : ∀ s : List Char, s.length ≤ n →
    SlugChars (subNonAlnum s) ∧ NoDD (subNonAlnum s) := by
  induction n with
  | zero =>
    intro s hs
    have : s = [] := by
      cases s with
      | nil => rfl
      | cons a l => simp at hs
    subst this
    simp [subNonAlnum_nil, SlugChars, NoDD]
  | succ n ih =>
    intro s hs
    cases s with
    | nil => simp [subNonAlnum_nil, SlugChars, NoDD]
    | cons c rest =>
      simp only [List.length_cons] at hs
      by_cases hc : isLowerAlnum c = true
      · rw [subNonAlnum_cons_pos c rest hc]
        obtain ⟨h1, h2⟩ := ih rest (by omega)
        refine ⟨?_, ?_⟩
        · intro x hx
          rcases List.mem_cons.1 hx with hx | hx
          · exact hx ▸ Or.inl hc
          · exact h1 x hx
        · rw [NoDD, List.chain'_cons']
          refine ⟨?_, h2⟩
          intro b _ hb
          exact ne_dash_of_alnum hc hb.1
      · rw [subNonAlnum_cons_neg c rest (by simpa using hc)]
        have hlen : (rest.dropWhile (fun x => !isLowerAlnum x)).length ≤ n := by
          have h := (List.dropWhile_sublist (l := rest)
            (p := fun x => !isLowerAlnum x)).length_le
          omega
        obtain ⟨h1, h2⟩ := ih (rest.dropWhile (fun x => !isLowerAlnum x)) hlen
        refine ⟨?_, ?_⟩
        · intro x hx
          rcases List.mem_cons.1 hx with hx | hx
          · exact Or.inr hx
          · exact h1 x hx
        · rw [NoDD, List.chain'_cons']
          refine ⟨?_, h2⟩
          intro b hb hb'
          cases hrest : rest.dropWhile (fun x => !isLowerAlnum x) with
          | nil => rw [hrest, subNonAlnum_nil] at hb; simp at hb
          | cons d t =>
            have hd : (!isLowerAlnum d) = false :=
              head_dropWhile_false _ rest d (by rw [hrest]; rfl)
            have hd' : isLowerAlnum d = true := by simpa using hd
            rw [hrest, subNonAlnum_cons_pos d t hd'] at hb
            have : b = d := by
              have := hb
              simp only [List.head?_cons, Option.mem_def, Option.some_inj] at this
              exact this.symm
            exact ne_dash_of_alnum hd' (this ▸ hb'.2)

theorem noDD_append_right {a b : List Char} (h : NoDD (a ++ b)) : NoDD b :=
  (List.chain'_append.1 h).2.1

theorem noDD_drop {s : List Char} (n : Nat) (h : NoDD s) : NoDD (s.drop n) := by
  have := List.take_append_drop n s
  rw [NoDD] at h ⊢
  rw [← this] at h
  exact noDD_append_right h

theorem noDD_take {s : List Char} (n : Nat) (h : NoDD s) : NoDD (s.take n) := by
  have := List.take_append_drop n s
  rw [NoDD] at h ⊢
  rw [← this] at h
  exact (List.chain'_append.1 h).1

theorem stripDashes_chars {s : List Char} (h : SlugChars s) :
    SlugChars (stripDashes s) := by
  obtain ⟨n, m, hrep⟩ := stripDashes_eq_drop_take s
  rw [hrep]
  intro c hc
  exact h c (List.drop_subset n s (List.take_subset m _ hc))

theorem stripDashes_noDD {s : List Char} (h : NoDD s) :
    NoDD (stripDashes s) := by
  obtain ⟨n, m, hrep⟩ := stripDashes_eq_drop_take s
  rw [hrep]
  exact noDD_take m (noDD_drop n h)

theorem stripDashes_head (s : List Char) :
    ∀ c, (stripDashes s).head? = some c → c ≠ '-' := by
  intro c hc
  obtain ⟨k, hk⟩ := dropWhile_eq_drop (fun c => decide (c = '-'))
    (s.dropWhile (fun c => decide (c = '-'))).reverse
  have hrep : stripDashes s =
      (s.dropWhile (fun c => decide (c = '-'))).take
        ((s.dropWhile (fun c => decide (c = '-'))).length - k) := by
    rw [stripDashes, hk, List.drop_reverse, List.reverse_reverse]
  rw [hrep] at hc
  have hne : (s.dropWhile (fun c => decide (c = '-'))).take
      ((s.dropWhile (fun c => decide (c = '-'))).length - k) ≠ [] := by
    intro hnil
    rw [hnil] at hc
    simp at hc
  rw [head_take_ne_nil hne] at hc
  have := head_dropWhile_false (fun c => decide (c = '-')) s c hc
  simpa using this

theorem stripDashes_last (s : List Char) :
    ∀ c, (stripDashes s).reverse.head? = some c → c ≠ '-' := by
  intro c hc
  rw [stripDashes, List.reverse_reverse] at hc
  have := head_dropWhile_false (fun c => decide (c = '-'))
    (s.dropWhile (fun c => decide (c = '-'))).reverse c hc
  simpa using this

theorem pySplitGo_no_dash : ∀ (s acc : List Char), '-' ∉ s →
    pySplitGo ['-'] acc s = [acc ++ s] := by
  intro s
  induction s with
  | nil => intro acc _; simp [pySplitGo_nil]
  | cons c rest ih =>
    intro acc hnd
    have hc : c ≠ '-' := by
      intro h
      exact hnd (h ▸ List.mem_cons_self c rest)
    rw [pySplitGo_neg]
    · rw [ih (acc ++ [c]) (fun h => hnd (List.mem_cons_of_mem c h))]
      simp
    · intro ⟨_, hp⟩
      simp only [isPre, Bool.and_eq_true, decide_eq_true_eq] at hp
      exact hc hp.1.symm

theorem pySplitGo_group : ∀ (g r acc : List Char), '-' ∉ g →
    pySplitGo ['-'] acc (g ++ '-' :: r) = (acc ++ g) :: pySplitGo ['-'] [] r := by
  intro g
  induction g with
  | nil =>
    intro r acc _
    rw [List.nil_append, pySplitGo_pos]
    · simp
    · simp
    · simp [isPre]
  | cons c g' ih =>
    intro r acc hnd
    have hc : c ≠ '-' := by
      intro h
      exact hnd (h ▸ List.mem_cons_self c g')
    rw [List.cons_append, pySplitGo_neg]
    · rw [ih r (acc ++ [c]) (fun h => hnd (List.mem_cons_of_mem c h))]
      simp
    · intro ⟨_, hp⟩
      simp only [isPre, Bool.and_eq_true, decide_eq_true_eq] at hp
      exact hc hp.1.symm

theorem split_dash_groups (n : Nat) : ∀ s : List Char, s.length ≤ n →
    SlugChars s → NoDD s → s ≠ [] →
    (∀ c, s.head? = some c → c ≠ '-') →
    (∀ c, s.reverse.head? = some c → c ≠ '-') →
    (pySplit ['-'] s).all (fun g => !g.isEmpty && g.all isLowerAlnum) = true := by
  induction n with
  | zero =>
    intro s hs _ _ hne _ _
    cases s with
    | nil => exact absurd rfl hne
    | cons a l => simp at hs
  | succ n ih =>
    intro s hs hchars hchain hne hhead hlast
    have hsplit := List.takeWhile_append_dropWhile
      (p := fun c => !(decide (c = '-'))) (l := s)
    set g := s.takeWhile (fun c => !(decide (c = '-'))) with hg
    set rest := s.dropWhile (fun c => !(decide (c = '-'))) with hrest
    have hgnd : '-' ∉ g := by
      intro hmem
      have := List.mem_takeWhile_imp hmem
      simp at this
    have hgalnum : ∀ c ∈ g, isLowerAlnum c = true := by
      intro c hc
      have hcs : c ∈ s := hsplit ▸ List.mem_append_left rest hc
      rcases hchars c hcs with h | h
      · exact h
      · subst h
        exact absurd hc hgnd
    have hgne : g ≠ [] := by
      cases hs0 : s with
      | nil => exact absurd hs0 hne
      | cons a l =>
        have ha : a ≠ '-' := hhead a (by rw [hs0]; rfl)
        rw [hg, hs0, List.takeWhile_cons]
        simp [ha]
    cases hr : rest with
    | nil =>
      have hseq : s = g := by rw [← hsplit, hr, List.append_nil]
      have : '-' ∉ s := hseq ▸ hgnd
      rw [pySplit, pySplitGo_no_dash s [] this, List.nil_append]
      simp only [List.all_cons, List.all_nil, Bool.and_true, Bool.and_eq_true]
      refine ⟨by simpa using hne, ?_⟩
      rw [List.all_eq_true]
      intro c hc
      exact hgalnum c (hseq ▸ hc)
    | cons d r =>
      have hd : d = '-' := by
        have := head_dropWhile_false (fun c => !(decide (c = '-'))) s d
          (by rw [← hrest, hr]; rfl)
        simpa using this
      subst hd
      have hseq : s = g ++ '-' :: r := by rw [← hsplit, hr]
      have hchainr : NoDD ('-' :: r) := by
        rw [hseq] at hchain
        exact noDD_append_right hchain
      have hrne : r ≠ [] := by
        intro h0
        subst h0
        have : s.reverse.head? = some '-' := by
          rw [hseq]
          simp
        exact hlast '-' this rfl
      obtain ⟨c0, t0, hc0⟩ : ∃ c0 t0, r.reverse = c0 :: t0 := by
        cases hcr : r.reverse with
        | nil => exact absurd (by simpa using hcr) hrne
        | cons x y => exact ⟨x, y, rfl⟩
      rw [pySplit, hseq, pySplitGo_group g r [] hgnd, List.nil_append]
      simp only [List.all_cons, Bool.and_eq_true]
      refine ⟨⟨by simpa using hgne, ?_⟩, ?_⟩
      · rw [List.all_eq_true]
        intro c hc
        exact hgalnum c hc
      · refine ih r ?_ ?_ ?_ hrne ?_ ?_
        · have : s.length = g.length + 1 + r.length := by
            rw [hseq]
            simp
            omega
          omega
        · intro c hc
          exact hchars c (hseq ▸ List.mem_append_right g (List.mem_cons_of_mem _ hc))
        · rw [NoDD] at hchainr ⊢
          exact (List.chain'_cons'.1 hchainr).2
        · intro c hc
          have := (List.chain'_cons'.1 hchainr).1 c (by rw [hc]; rfl)
          intro hcd
          exact this ⟨rfl, hcd⟩
        · intro c hc
          have hsr : s.reverse.head? = some c0 := by
            rw [hseq]
            simp only [List.reverse_append, List.reverse_cons]
            rw [hc0]
            simp
          have : c = c0 := by
            rw [hc0] at hc
            have := hc
            simp only [List.head?_cons, Option.some_inj] at this
            exact this.symm
          subst this
          exact hlast c hsr

/-- C2: for every triple of input strings, the Slug Builder's output
either matches `^[a-z0-9]+(-[a-z0-9]+)*$` (checked by `slugRegexMatch`:
splitting on `-` yields only nonempty all-alphanumeric groups) or is the
empty string.  `create_slug` is a Lean function, hence pure and
deterministic: equal inputs give equal outputs by reflexivity. -/
theorem C2_slug_builder (service neighborhood city : List Char) :
    slugRegexMatch (create_slug service neighborhood city) = true ∨
      create_slug service neighborhood city = [] := by
  by_cases hempty : create_slug service neighborhood city = []
  · exact Or.inr hempty
  · left
    rw [create_slug] at hempty ⊢
    set w := subNonAlnum (List.map Char.toLower
      (service ++ (" in ").toList ++ neighborhood ++ (" ").toList ++ city)) with hw
    obtain ⟨hchars, hchain⟩ := subNonAlnum_inv
      (List.map Char.toLower
        (service ++ (" in ").toList ++ neighborhood ++ (" ").toList ++ city)).length
      _ le_rfl
    rw [slugRegexMatch]
    have hregex := split_dash_groups (stripDashes w).length (stripDashes w) le_rfl
      (stripDashes_chars hchars) (stripDashes_noDD hchain) hempty
      (stripDashes_head w) (stripDashes_last w)
    have hsep : ("-").toList = ['-'] := rfl
    rw [hsep, hregex]
    simp [hempty]

/-- `get_service_image_url` (lines 66-72): placeholder returning a fixed
URL; `service` and `city` are accepted and ignored, as in the source. -/
def get_service_image_url (service city : List Char) : List Char :=
  ("http://localpageshub.local/wp-content/uploads/2025/04/images.jpeg").toList

/-- `get_ai_content` (lines 43-64): deterministic templated sentences
keyed by the content-type label, with a literal fallback for any
unrecognized label. -/
def get_ai_content (content_type service city neighborhood price_from :
    List Char) : List Char :=
  if content_type = ("intro").toList then
    ("Professional ").toList ++ service ++ (" services in ").toList ++
      neighborhood ++ (", ").toList ++ city ++ (" starting from ").toList ++
      price_from ++
      (". Our experienced team provides fast and reliable solutions for all your needs.").toList
  else if content_type = ("expertise").toList then
    ("With years of experience serving ").toList ++ city ++
      (" residents, our ").toList ++ service ++
      (" experts are your trusted choice in ").toList ++ neighborhood ++
      (". We combine local expertise with professional excellence to deliver outstanding results every time.").toList
  else if content_type = ("coverage").toList then
    ("Our service area includes all of ").toList ++ neighborhood ++
      (" and surrounding ").toList ++ city ++
      (" neighborhoods. We\x27re strategically located to provide quick response times throughout the entire service area.").toList
  else if content_type = ("cta").toList then
    ("Ready to schedule your ").toList ++ service ++
      (" service? Contact us now to get started with our professional team in ").toList ++
      neighborhood ++ (". Call today for a free consultation!").toList
  else
    ("[AI Content Placeholder]").toList

/-- `create_page_content` (lines 128-192): the fixed block template with
the image URL, the four AI fragments and the four fields interpolated,
and the whole document stripped. -/
def create_page_content (service city neighborhood price_from : List Char) :
    List Char :=
  let image_url := get_service_image_url service city
  let intro := get_ai_content (("intro").toList) service city neighborhood price_from
  let expertise := get_ai_content (("expertise").toList) service city neighborhood price_from
  let coverage := get_ai_content (("coverage").toList) service city neighborhood price_from
  let cta := get_ai_content (("cta").toList) service city neighborhood price_from
  pyStrip (
    ("<!-- wp:image -->\n<figure class=\"wp-block-image\">\n<img src=\"").toList
    ++ image_url ++ ("\" alt=\"").toList ++ service ++ (" services in ").toList
    ++ city
    ++ ("\" />\n</figure>\n<!-- /wp:image -->\n\n<!-- wp:paragraph -->\n<p>").toList
    ++ intro
    ++ ("</p>\n<!-- /wp:paragraph -->\n\n<!-- wp:heading -->\n<h2>Expert ").toList
    ++ service ++ (" Services in ").toList ++ neighborhood
    ++ ("</h2>\n<!-- /wp:heading -->\n\n<!-- wp:paragraph -->\n<p>").toList
    ++ expertise
    ++ ("</p>\n<!-- /wp:paragraph -->\n\n<!-- wp:heading -->\n<h2>Why Choose Our Services</h2>\n<!-- /wp:heading -->\n\n<!-- wp:list -->\n<ul>\n<li>Starting from ").toList
    ++ price_from
    ++ ("</li>\n<li>Licensed and certified professionals</li>\n<li>24/7 emergency service availability</li>\n<li>Same-day appointments available</li>\n<li>Serving ").toList
    ++ neighborhood
    ++ (" and surrounding areas</li>\n<li>100% satisfaction guaranteed</li>\n</ul>\n<!-- /wp:list -->\n\n<!-- wp:heading -->\n<h2>Service Area Coverage</h2>\n<!-- /wp:heading -->\n\n<!-- wp:paragraph -->\n<p>").toList
    ++ coverage
    ++ ("</p>\n<!-- /wp:paragraph -->\n\n<!-- wp:heading -->\n<h2>Schedule Your Service Today</h2>\n<!-- /wp:heading -->\n\n<!-- wp:paragraph -->\n<p>").toList
    ++ cta
    ++ ("</p>\n<!-- /wp:paragraph -->\n\n<!-- wp:paragraph -->\n<p><em>*Service available in ").toList
    ++ neighborhood ++ (", ").toList ++ city
    ++ (" and surrounding areas. Prices may vary depending on service requirements.</em></p>\n<!-- /wp:paragraph -->").toList)

/-- `get_content_preview` (lines 242-246): strip the content, split into
lines, keep lines that are nonblank and do not start with `<!--`, take
the first two, rejoin with newlines. -/
def get_content_preview (content : List Char) : List Char :=
  pyJoin (("\n").toList)
    (((pySplit (("\n").toList) (pyStrip content)).filter
      (fun l => !(pyStrip l).isEmpty && !(isPre (("<!--").toList) l))).take 2)

/-- The notes field computed in `main` (line 334): a warning naming the
requested and the remote slug when the remote system renamed the slug,
the empty string otherwise. -/
def mkNotes (original_slug new_slug : List Char) : List Char :=
  if new_slug ≠ original_slug then
    ("⚠️ WP changed slug: ").toList ++ original_slug ++
      (" → ").toList ++ new_slug
  else []

/-- `create_wp_page` (lines 194-220): the HTTP POST itself is an external
effect, abstracted as its result — either a raw response or a transport
exception (`requests.exceptions.RequestException`: connection error,
timeout, DNS failure).  The function returns the raw response on
completion and `None` (never raising) on a transport exception. -/
def create_wp_page (result : Except Unit WpResponse) : Option WpResponse :=
  match result with
  | Except.ok response => some response
  | Except.error _ => none

/-- `validate_csv_file`'s header check (lines 227-240): every required
column name must appear among the whitespace-stripped header names. -/
def validate_csv_file (headers : List (List Char)) : Bool :=
  requiredFields.all (fun f => (headers.map pyStrip).any (fun h => decide (h = f)))

/-- A row as `csv.DictReader` builds it: header names zipped with the
row's values (header names are used untrimmed as keys). -/
def dictReaderRow (headers values : List (List Char)) :
    List (List Char × List Char) :=
  headers.zip values

/-- The observable outcome of processing one row in `main`'s loop
(lines 279-350): skipped with its missing fields (line 293), dry-run
preview (lines 307-313), page created and logged (lines 327-344), or
failed with no log write (lines 345-346). -/
inductive RowOutcome where
  | skipped (missing : List (List Char))
  | preview (title slug pv : List Char)
  | created (entry : LogEntry)
  | failed (title : List Char)
deriving DecidableEq

/-- Is this outcome a created-and-logged page? -/
def RowOutcome.isCreated : RowOutcome → Bool
  | created _ => true
  | _ => false

/-- The log record of an outcome, if any. -/
def RowOutcome.logOf : RowOutcome → Option LogEntry
  | created e => some e
  | _ => none

/-- One iteration of `main`'s row loop (lines 282-346): validate the
row; for a valid row strip the four fields, build title, slug and
content; in dry-run mode report a preview; otherwise call the publisher
and, exactly when a response arrived with status 201, build the Log
Entry (with the slug-rename note) — any other response, or no response,
is a failure with no log entry. -/
def processRow (dryRun publish : Bool) (result : Except Unit WpResponse)
    (row : List (List Char × List Char)) : RowOutcome :=
  let missing := rowMissingFields row
  if missing.isEmpty then
    let service := pyStrip (rowGet row (("service").toList))
    let city := pyStrip (rowGet row (("city").toList))
    let neighborhood := pyStrip (rowGet row (("neighborhood").toList))
    let price_from := pyStrip (rowGet row (("price_from").toList))
    let title := pageTitle service neighborhood city
    let original_slug := create_slug service neighborhood city
    let content := create_page_content service city neighborhood price_from
    if dryRun then
      RowOutcome.preview title original_slug (get_content_preview content)
    else
      match create_wp_page result with
      | some response =>
        if response.status = 201 then
          RowOutcome.created
            { title := title
              slug := response.slug
              status := if publish then ("publish").toList else ("draft").toList
              url := response.link
              wp_id := response.id
              notes := mkNotes original_slug response.slug }
        else
          RowOutcome.failed title
      | none => RowOutcome.failed title
  else
    RowOutcome.skipped missing

/-- The row-limit slice `lines[:args.limit]` (lines 275-276), with
Python's slice semantics for a negative limit. -/
def applyLimit {α : Type} (limit : Option Int) (rows : List α) : List α :=
  match limit with
  | none => rows
  | some n =>
    if 0 ≤ n then rows.take n.toNat else rows.take (rows.length - n.natAbs)

/-- `main`'s batch loop over the (possibly limited) rows, with the HTTP
transport abstracted as a function from the row's position to the call's
result. -/
def runBatch (dryRun publish : Bool) (limit : Option Int)
    (transport : Nat → Except Unit WpResponse)
    (rows : List (List (List Char × List Char))) : List RowOutcome :=
  ((applyLimit limit rows).enum).map
    (fun p => processRow dryRun publish (transport p.1) p.2)

/-- The Log Entries a batch writes, in order. -/
def logRecords (outs : List RowOutcome) : List LogEntry :=
  outs.filterMap RowOutcome.logOf

/-- A fully valid example row. -/
def validRow : List (List Char × List Char) :=
  [(("service").toList, ("Plumbing").toList),
   (("city").toList, ("Austin").toList),
   (("neighborhood").toList, ("Downtown").toList),
   (("price_from").toList, ("$50").toList)]

theorem processRow_not_created (dryRun publish : Bool)
    (result : Except Unit WpResponse) (row : List (List Char × List Char))
    (hfail : ∀ r, create_wp_page result = some r → r.status ≠ 201) :
    (processRow dryRun publish result row).isCreated = false := by
  by_cases hm : (rowMissingFields row).isEmpty = true
  · by_cases hd : dryRun = true
    · simp [processRow, hm, hd, RowOutcome.isCreated]
    · have hd' : dryRun = false := by
        cases dryRun
        · rfl
        · exact absurd rfl hd
      cases hres : create_wp_page result with
      | none => simp [processRow, hm, hd', hres, RowOutcome.isCreated]
      | some r =>
        have hne := hfail r hres
        simp [processRow, hm, hd', hres, hne, RowOutcome.isCreated]
  · simp [processRow, hm, RowOutcome.isCreated]

theorem runBatch_length (dryRun publish : Bool) (limit : Option Int)
    (transport : Nat → Except Unit WpResponse)
    (rows : List (List (List Char × List Char))) :
    (runBatch dryRun publish limit transport rows).length =
      (applyLimit limit rows).length := by
  simp [runBatch]

/-- C3: the Publisher Client returns the raw response on completion and
an absent result — never raising — on a transport-level failure; and on
every row whose call fails that way or returns a non-201 status, the
driver produces a non-`created` outcome (so no Log Entry is written for
that row), while every row of the batch still receives an outcome
(processing of subsequent rows continues). -/
theorem C3_publisher_failure :
    (∀ r : WpResponse, create_wp_page (Except.ok r) = some r) ∧
    (∀ e : Unit, create_wp_page (Except.error e) = none) ∧
    (∀ (dryRun publish : Bool) (limit : Option Int)
        (transport : Nat → Except Unit WpResponse)
        (rows : List (List (List Char × List Char))) (i : Nat),
      (runBatch dryRun publish limit transport rows).length =
        (applyLimit limit rows).length ∧
      ((∀ r, create_wp_page (transport i) = some r → r.status ≠ 201) →
        ((runBatch dryRun publish limit transport rows).getD i
          (RowOutcome.failed [])).isCreated = false)) := by
  refine ⟨fun r => rfl, fun e => rfl, ?_⟩
  intro dryRun publish limit transport rows i
  refine ⟨runBatch_length dryRun publish limit transport rows, ?_⟩
  intro hfail
  rw [List.getD_eq_getElem?_getD]
  cases hro : (runBatch dryRun publish limit transport rows)[i]? with
  | none => rfl
  | some o =>
    rw [runBatch, List.getElem?_map, List.getElem?_enum] at hro
    cases hrow : (applyLimit limit rows)[i]? with
    | none => rw [hrow] at hro; simp at hro
    | some row =>
      rw [hrow] at hro
      have hpr : processRow dryRun publish (transport i) row = o := by
        simpa using hro
      rw [← hpr]
      simpa using processRow_not_created dryRun publish (transport i) row hfail

/-- C3 witness: a transport failure at row 0 of a two-row batch yields a
non-created outcome for row 0 while both rows still get outcomes. -/
theorem C3_publisher_failure_witness :
    ((runBatch false false none (fun _ => Except.error ())
      [validRow, validRow]).getD 0 (RowOutcome.failed [])).isCreated = false ∧
    (runBatch false false none (fun _ => Except.error ())
      [validRow, validRow]).length = 2 :=
  ⟨(C3_publisher_failure.2.2 false false none (fun _ => Except.error ())
      [validRow, validRow] 0).2
      (fun r h => by simp [create_wp_page] at h),
   ((C3_publisher_failure.2.2 false false none (fun _ => Except.error ())
      [validRow, validRow] 0).1).trans rfl⟩

theorem mkNotes_self (o : List Char) : mkNotes o o = [] := by
  simp [mkNotes]

theorem mkNotes_of_ne {o n' : List Char} (h : n' ≠ o) :
    mkNotes o n' ≠ [] ∧ occursInB o (mkNotes o n') = true ∧
      occursInB n' (mkNotes o n') = true := by
  refine ⟨?_, ?_, ?_⟩
  · rw [mkNotes, if_pos h]
    intro hnil
    have hlen := congrArg List.length hnil
    have hpos : 0 < (("⚠️ WP changed slug: ").toList).length := by decide
    simp only [List.length_append, List.length_nil] at hlen
    omega
  · have hocc := occursInB_of_append (("⚠️ WP changed slug: ").toList) o
      ((" → ").toList ++ n')
    rw [mkNotes, if_pos h]
    simpa [List.append_assoc] using hocc
  · have hocc := occursInB_of_append
      (("⚠️ WP changed slug: ").toList ++ o ++ (" → ").toList) n' []
    rw [mkNotes, if_pos h]
    simpa [List.append_assoc] using hocc

/-- C7: for a valid row whose remote call returns HTTP 201, the driver
writes a Log Entry whose `notes` is `mkNotes requested remote`; that
field is the empty string exactly when the remote slug equals the
requested slug, and otherwise is non-empty and mentions both slugs. -/
theorem C7_slug_note (publish : Bool) (result : Except Unit WpResponse)
    (row : List (List Char × List Char)) (r : WpResponse)
    (hvalid : (rowMissingFields row).isEmpty = true)
    (hres : result = Except.ok r) (hst : r.status = 201) :
    ∃ e, processRow false publish result row = RowOutcome.created e ∧
      e.notes = mkNotes (create_slug (pyStrip (rowGet row (("service").toList)))
        (pyStrip (rowGet row (("neighborhood").toList)))
        (pyStrip (rowGet row (("city").toList)))) r.slug ∧
      (r.slug = create_slug (pyStrip (rowGet row (("service").toList)))
          (pyStrip (rowGet row (("neighborhood").toList)))
          (pyStrip (rowGet row (("city").toList))) → e.notes = []) ∧
      (r.slug ≠ create_slug (pyStrip (rowGet row (("service").toList)))
          (pyStrip (rowGet row (("neighborhood").toList)))
          (pyStrip (rowGet row (("city").toList))) →
        e.notes ≠ [] ∧
        occursInB (create_slug (pyStrip (rowGet row (("service").toList)))
          (pyStrip (rowGet row (("neighborhood").toList)))
          (pyStrip (rowGet row (("city").toList)))) e.notes = true ∧
        occursInB r.slug e.notes = true) := by
  subst hres
  have hpr : processRow false publish (Except.ok r) row = RowOutcome.created
      { title := pageTitle (pyStrip (rowGet row (("service").toList)))
          (pyStrip (rowGet row (("neighborhood").toList)))
          (pyStrip (rowGet row (("city").toList)))
        slug := r.slug
        status := if publish then ("publish").toList else ("draft").toList
        url := r.link
        wp_id := r.id
        notes := mkNotes (create_slug (pyStrip (rowGet row (("service").toList)))
          (pyStrip (rowGet row (("neighborhood").toList)))
          (pyStrip (rowGet row (("city").toList)))) r.slug } := by
    simp [processRow, hvalid, create_wp_page, hst]
  refine ⟨_, hpr, rfl, ?_, ?_⟩
  · intro heq
    show mkNotes _ r.slug = []
    rw [heq]
    exact mkNotes_self _
  · intro hne
    exact mkNotes_of_ne hne

/-- C7 witness: a 201 response with a renamed slug yields a non-empty
note mentioning both slugs; a 201 response with the matching slug yields
an empty note. -/
theorem C7_slug_note_witness :
    (∃ e, processRow false false
        (Except.ok ⟨201, ("other-slug").toList, [], []⟩) validRow =
          RowOutcome.created e ∧
      e.notes ≠ [] ∧
      occursInB (("plumbing-in-downtown-austin").toList) e.notes = true ∧
      occursInB (("other-slug").toList) e.notes = true) ∧
    (∃ e, processRow false false
        (Except.ok ⟨201, ("plumbing-in-downtown-austin").toList, [], []⟩)
          validRow = RowOutcome.created e ∧ e.notes = []) := by
  constructor
  · obtain ⟨e, he, -, -, hne⟩ := C7_slug_note false
      (Except.ok ⟨201, ("other-slug").toList, [], []⟩) validRow
      ⟨201, ("other-slug").toList, [], []⟩ (by decide) rfl rfl
    have hslug : create_slug (pyStrip (rowGet validRow (("service").toList)))
        (pyStrip (rowGet validRow (("neighborhood").toList)))
        (pyStrip (rowGet validRow (("city").toList))) =
        ("plumbing-in-downtown-austin").toList := by decide
    obtain ⟨h1, h2, h3⟩ := hne (by rw [hslug]; decide)
    exact ⟨e, he, h1, hslug ▸ h2, h3⟩
  · obtain ⟨e, he, -, heq, -⟩ := C7_slug_note false
      (Except.ok ⟨201, ("plumbing-in-downtown-austin").toList, [], []⟩) validRow
      ⟨201, ("plumbing-in-downtown-austin").toList, [], []⟩ (by decide) rfl rfl
    refine ⟨e, he, heq (by decide)⟩

/-- Five data rows, for the row-limit claims. -/
def rows5 : List (List (List Char × List Char)) := List.replicate 5 validRow

/-- C8 counterexample: the claim quantifies over every row-limit value,
but `--limit` is parsed as a Python `int`, and for the negative limit
`-1` on a 5-row CSV the slice `lines[:-1]` keeps the first 4 rows,
not the first `min(-1, 5)` (at most zero) rows. -/
theorem C8_counterexample :
    applyLimit (some (-1)) rows5 ≠
      rows5.take ((min (-1 : Int) (rows5.length : Int)).toNat) ∧
    (applyLimit (some (-1)) rows5).length = 4 := by
  constructor
  · decide
  · decide

/-- C8 (amended): for every non-negative limit `N`, the Batch Driver
processes exactly the first `min(N, R)` of the `R` rows, in original
file order: the working row set is the length-`min(N, R)` prefix, and
running with the limit equals running on that prefix. -/
theorem C8_row_limit (dryRun publish : Bool)
    (transport : Nat → Except Unit WpResponse)
    (rows : List (List (List Char × List Char))) (n : Int) (h : 0 ≤ n) :
    applyLimit (some n) rows = rows.take (min n.toNat rows.length) ∧
    runBatch dryRun publish (some n) transport rows =
      runBatch dryRun publish none transport (rows.take n.toNat) ∧
    (runBatch dryRun publish (some n) transport rows).length =
      min n.toNat rows.length := by
  have h1 : applyLimit (some n) rows = rows.take n.toNat := by
    simp [applyLimit, h]
  refine ⟨?_, ?_, ?_⟩
  · rw [h1]
    rcases le_or_lt n.toNat rows.length with hle | hlt
    · rw [min_eq_left hle]
    · rw [min_eq_right (le_of_lt hlt), List.take_of_length_le (le_of_lt hlt),
        List.take_length]
  · rw [runBatch, h1]
    rfl
  · rw [runBatch_length, h1, List.length_take]

/-- C8 witness: `--limit 2` on a 5-row CSV processes exactly 2 rows. -/
theorem C8_row_limit_witness :
    applyLimit (some 2) rows5 = rows5.take (min (Int.toNat 2) rows5.length) ∧
    (runBatch false false (some 2) (fun _ => Except.error ()) rows5).length = 2 := by
  have hw := C8_row_limit false false (fun _ => Except.error ()) rows5 2
    (by decide)
  refine ⟨hw.1, hw.2.2.trans (by decide)⟩

theorem processRow_dry_notlog (publish : Bool)
    (result : Except Unit WpResponse) (row : List (List Char × List Char)) :
    (processRow true publish result row).logOf = none := by
  by_cases hm : (rowMissingFields row).isEmpty = true
  · simp [processRow, hm, RowOutcome.logOf]
  · simp [processRow, hm, RowOutcome.logOf]

/-- C9: in dry-run mode the batch outcome is independent of the HTTP
transport (no remote call can influence — or be required for — any
outcome), no Log Entry is produced for any row, and every valid row
yields exactly a preview of the title, the slug, and the content preview
(`get_content_preview`: the first two non-comment, non-blank lines of
the rendered content). -/
theorem C9_dry_run :
    (∀ (publish : Bool) (limit : Option Int)
        (t1 t2 : Nat → Except Unit WpResponse)
        (rows : List (List (List Char × List Char))),
      runBatch true publish limit t1 rows = runBatch true publish limit t2 rows) ∧
    (∀ (publish : Bool) (limit : Option Int)
        (t : Nat → Except Unit WpResponse)
        (rows : List (List (List Char × List Char))),
      logRecords (runBatch true publish limit t rows) = []) ∧
    (∀ (publish : Bool) (result : Except Unit WpResponse)
        (row : List (List Char × List Char)),
      (rowMissingFields row).isEmpty = true →
      processRow true publish result row =
        RowOutcome.preview
          (pageTitle (pyStrip (rowGet row (("service").toList)))
            (pyStrip (rowGet row (("neighborhood").toList)))
            (pyStrip (rowGet row (("city").toList))))
          (create_slug (pyStrip (rowGet row (("service").toList)))
            (pyStrip (rowGet row (("neighborhood").toList)))
            (pyStrip (rowGet row (("city").toList))))
          (get_content_preview (create_page_content
            (pyStrip (rowGet row (("service").toList)))
            (pyStrip (rowGet row (("city").toList)))
            (pyStrip (rowGet row (("neighborhood").toList)))
            (pyStrip (rowGet row (("price_from").toList)))))) := by
  refine ⟨?_, ?_, ?_⟩
  · intro publish limit t1 t2 rows
    rw [runBatch, runBatch]
    refine List.map_eq_map_iff.mpr ?_
    intro p _
    by_cases hm : (rowMissingFields p.2).isEmpty = true
    · simp [processRow, hm]
    · simp [processRow, hm]
  · intro publish limit t rows
    rw [logRecords]
    refine List.filterMap_eq_nil_iff.mpr ?_
    intro o ho
    rw [runBatch] at ho
    obtain ⟨p, -, hp⟩ := List.mem_map.1 ho
    rw [← hp]
    exact processRow_dry_notlog publish (t p.1) p.2
  · intro publish result row hvalid
    simp [processRow, hvalid]

/-- C9 witness: the dry-run preview on a concrete valid row, with the
no-transport and no-log parts instantiated on a one-row batch. -/
theorem C9_dry_run_witness :
    processRow true false (Except.error ()) validRow =
      RowOutcome.preview
        (pageTitle (pyStrip (rowGet validRow (("service").toList)))
          (pyStrip (rowGet validRow (("neighborhood").toList)))
          (pyStrip (rowGet validRow (("city").toList))))
        (create_slug (pyStrip (rowGet validRow (("service").toList)))
          (pyStrip (rowGet validRow (("neighborhood").toList)))
          (pyStrip (rowGet validRow (("city").toList))))
        (get_content_preview (create_page_content
          (pyStrip (rowGet validRow (("service").toList)))
          (pyStrip (rowGet validRow (("city").toList)))
          (pyStrip (rowGet validRow (("neighborhood").toList)))
          (pyStrip (rowGet validRow (("price_from").toList))))) ∧
    logRecords (runBatch true false none (fun _ => Except.error ())
      [validRow]) = [] :=
  ⟨C9_dry_run.2.2 false (Except.error ()) validRow (by decide),
   C9_dry_run.2.1 false none (fun _ => Except.error ()) [validRow]⟩

theorem rowGet_not_mem (headers values : List (List Char)) (f : List Char)
    (h : f ∉ headers) : rowGet (dictReaderRow headers values) f = [] := by
  rw [rowGet, List.find?_eq_none.mpr]
  intro kv hkv
  have hmem := (List.of_mem_zip hkv).1
  simp only [decide_eq_true_eq]
  intro heq
  exact h (heq ▸ hmem)

theorem missing_all_of_no_raw_header (headers values : List (List Char))
    (h : ∀ f ∈ requiredFields, f ∉ headers) :
    rowMissingFields (dictReaderRow headers values) = requiredFields := by
  rw [rowMissingFields]
  refine List.filter_eq_self.mpr ?_
  intro f hf
  rw [rowGet_not_mem headers values f (h f hf)]
  rfl

theorem processRow_skipped_of_missing (dryRun publish : Bool)
    (result : Except Unit WpResponse) (row : List (List Char × List Char))
    (h : rowMissingFields row = requiredFields) :
    processRow dryRun publish result row = RowOutcome.skipped requiredFields := by
  simp only [processRow, h]
  rw [if_neg (by decide)]

theorem enumFrom_map_const_skipped (dryRun publish : Bool)
    (transport : Nat → Except Unit WpResponse) :
    ∀ (l : List (List (List Char × List Char))) (n : Nat),
      (∀ row ∈ l, rowMissingFields row = requiredFields) →
      (l.enumFrom n).map
          (fun p => processRow dryRun publish (transport p.1) p.2) =
        List.replicate l.length (RowOutcome.skipped requiredFields) := by
  intro l
  induction l with
  | nil => intro n _; rfl
  | cons a l ih =>
    intro n h
    rw [List.enumFrom_cons, List.map_cons]
    simp only
    rw [processRow_skipped_of_missing dryRun publish (transport n) a
        (h a (List.mem_cons_self a l)),
      ih (n + 1) (fun row hr => h row (List.mem_cons_of_mem a hr)),
      List.length_cons, List.replicate_succ]

theorem runBatch_all_skipped (dryRun publish : Bool) (limit : Option Int)
    (transport : Nat → Except Unit WpResponse)
    (rows : List (List (List Char × List Char)))
    (h : ∀ row ∈ rows, rowMissingFields row = requiredFields) :
    runBatch dryRun publish limit transport rows =
      List.replicate (applyLimit limit rows).length
        (RowOutcome.skipped requiredFields) := by
  rw [runBatch]
  have hsub : ∀ row ∈ applyLimit limit rows,
      rowMissingFields row = requiredFields := by
    intro row hr
    apply h
    cases limit with
    | none => exact hr
    | some n =>
      rw [applyLimit] at hr
      by_cases h0 : 0 ≤ n
      · rw [if_pos h0] at hr
        exact List.take_subset _ _ hr
      · rw [if_neg h0] at hr
        exact List.take_subset _ _ hr
  exact enumFrom_map_const_skipped dryRun publish transport
    (applyLimit limit rows) 0 hsub

/-- C10: file-level header validation strips whitespace from header
names, while per-row lookup uses the raw header names as keys; so for a
CSV whose required headers carry surrounding whitespace the file-level
check passes, yet every data row reports all four fields missing and is
skipped, and no Log Entry (hence no page) is ever produced from such a
file. -/
theorem C10_header_whitespace (headers : List (List Char))
    (hraw : ∀ f ∈ requiredFields, f ∉ headers)
    (hpass : validate_csv_file headers = true) :
    validate_csv_file headers = true ∧
    (∀ values : List (List Char),
      rowMissingFields (dictReaderRow headers values) = requiredFields) ∧
    (∀ (dryRun publish : Bool) (limit : Option Int)
        (transport : Nat → Except Unit WpResponse)
        (valueRows : List (List (List Char))),
      runBatch dryRun publish limit transport
          (valueRows.map (dictReaderRow headers)) =
        List.replicate
          (applyLimit limit (valueRows.map (dictReaderRow headers))).length
          (RowOutcome.skipped requiredFields) ∧
      logRecords (runBatch dryRun publish limit transport
        (valueRows.map (dictReaderRow headers))) = []) := by
  refine ⟨hpass, fun values => missing_all_of_no_raw_header headers values hraw, ?_⟩
  intro dryRun publish limit transport valueRows
  have hmiss : ∀ row ∈ valueRows.map (dictReaderRow headers),
      rowMissingFields row = requiredFields := by
    intro row hr
    obtain ⟨values, -, hv⟩ := List.mem_map.1 hr
    exact hv ▸ missing_all_of_no_raw_header headers values hraw
  have hbatch := runBatch_all_skipped dryRun publish limit transport
    (valueRows.map (dictReaderRow headers)) hmiss
  refine ⟨hbatch, ?_⟩
  rw [hbatch, logRecords]
  refine List.filterMap_eq_nil_iff.mpr ?_
  intro o ho
  rw [List.eq_of_mem_replicate ho]
  rfl

/-- Required headers carrying surrounding whitespace. -/
def wsHeaders : List (List Char) :=
  [(" service").toList, (" city").toList, (" neighborhood").toList,
   (" price_from").toList]

/-- C10 witness: with whitespace-padded headers the file-level check
passes, a fully populated data row still reports all four fields
missing, and a one-row batch writes no Log Entry. -/
theorem C10_header_whitespace_witness :
    validate_csv_file wsHeaders = true ∧
    rowMissingFields (dictReaderRow wsHeaders
      [("Plumbing").toList, ("Austin").toList, ("Downtown").toList,
       ("$50").toList]) = requiredFields ∧
    logRecords (runBatch false false none (fun _ => Except.error ())
      ([[("Plumbing").toList, ("Austin").toList, ("Downtown").toList,
         ("$50").toList]].map (dictReaderRow wsHeaders))) = [] := by
  have h := C10_header_whitespace wsHeaders (by decide) (by decide)
  exact ⟨h.1, h.2.1 _, (h.2.2 false false none (fun _ => Except.error ()) _).2⟩

/-- No nonempty proper suffix of `lit` is a prefix of `p`: an occurrence
of `p` can never start inside `lit` and continue past its end. -/
def noStraddle (p lit : List Char) : Bool :=
  (List.range lit.length).all fun i =>
    !(decide ((lit.drop i).length < p.length) && isPre (lit.drop i) p)

/-- Index (relative to `k`) of the first pattern of `ps` that is a
prefix of `s`. -/
def firstMatch : List (List Char) → List Char → Nat → Option Nat
  | [], _, _ => none
  | p :: ps, s, k => if isPre p s = true then some k else firstMatch ps s (k + 1)

/-- The sequence of pattern indices, in text order, at which a pattern
of `ps` occurs in `s`. -/
def markerSeq (ps : List (List Char)) : List Char → List Nat
  | [] => []
  | c :: rest =>
    match firstMatch ps (c :: rest) 0 with
    | some i => i :: markerSeq ps rest
    | none => markerSeq ps rest

/-- Number of occurrences of `p` in `s`. -/
def countOcc (p s : List Char) : Nat := (markerSeq [p] s).length

theorem noStraddle_tail {p : List Char} {c : Char} {a : List Char}
    (h : noStraddle p (c :: a) = true) : noStraddle p a = true := by
  rw [noStraddle, List.all_eq_true] at h ⊢
  intro i hi
  have := h (i + 1) (by
    simp only [List.mem_range, List.length_cons] at hi ⊢
    omega)
  simpa using this

theorem isPre_append_eq {p a : List Char} (b : List Char)
    (hstr : noStraddle p a = true) (ha : a ≠ []) :
    isPre p (a ++ b) = isPre p a := by
  cases heq : isPre p a with
  | true => exact isPre_append_left b heq
  | false =>
    cases hab : isPre p (a ++ b) with
    | false => rfl
    | true =>
      exfalso
      rcases le_or_lt p.length a.length with hle | hlt
      · rw [isPre_of_append hab hle] at heq
        simp at heq
      · obtain ⟨hap, -⟩ := isPre_append_split hab (le_of_lt hlt)
        rw [noStraddle, List.all_eq_true] at hstr
        have h0 := hstr 0 (by
          simp only [List.mem_range]
          cases a with
          | nil => exact absurd rfl ha
          | cons x xs => simp)
        simp only [List.drop_zero, Bool.not_eq_true', Bool.and_eq_false_iff,
          decide_eq_false_iff_not, not_lt] at h0
        rcases h0 with h0 | h0
        · omega
        · rw [hap] at h0
          simp at h0

theorem firstMatch_congr {ps : List (List Char)} {s1 s2 : List Char}
    (h : ∀ p ∈ ps, isPre p s1 = isPre p s2) :
    ∀ k, firstMatch ps s1 k = firstMatch ps s2 k := by
  induction ps with
  | nil => intro k; rfl
  | cons p ps ih =>
    intro k
    rw [firstMatch, firstMatch, h p (List.mem_cons_self p ps)]
    cases isPre p s2 with
    | true => rfl
    | false =>
      simp only [Bool.false_eq_true, if_false]
      exact ih (fun q hq => h q (List.mem_cons_of_mem p hq)) (k + 1)

theorem markerSeq_append (ps : List (List Char)) :
    ∀ a b : List Char, (∀ p ∈ ps, noStraddle p a = true) →
      markerSeq ps (a ++ b) = markerSeq ps a ++ markerSeq ps b := by
  intro a
  induction a with
  | nil => intro b _; rfl
  | cons c a ih =>
    intro b hstr
    have hfm : firstMatch ps (c :: (a ++ b)) 0 = firstMatch ps (c :: a) 0 :=
      firstMatch_congr
        (fun p hp => isPre_append_eq b (hstr p hp) (List.cons_ne_nil c a)) 0
    have hrec := ih b (fun p hp => noStraddle_tail (hstr p hp))
    show markerSeq ps (c :: (a ++ b)) = markerSeq ps (c :: a) ++ markerSeq ps b
    rw [markerSeq, hfm, markerSeq]
    cases firstMatch ps (c :: a) 0 with
    | some i => rw [hrec]; rfl
    | none => rw [hrec]

theorem markerSeq_flatten (ps : List (List Char)) :
    ∀ segs : List (List Char),
      (∀ s ∈ segs, ∀ p ∈ ps, noStraddle p s = true) →
      markerSeq ps segs.flatten = (segs.map (markerSeq ps)).flatten := by
  intro segs
  induction segs with
  | nil => intro _; rfl
  | cons a segs ih =>
    intro h
    rw [List.flatten_cons, List.map_cons, List.flatten_cons,
      markerSeq_append ps a segs.flatten (h a (List.mem_cons_self a segs)),
      ih (fun s hs p hp => h s (List.mem_cons_of_mem a hs) p hp)]

theorem isPre_cons_head {x : Char} {p' s : List Char}
    (h : isPre (x :: p') s = true) : s.head? = some x := by
  cases s with
  | nil => exact absurd h (by simp [isPre])
  | cons c rest =>
    simp only [isPre, Bool.and_eq_true, decide_eq_true_eq] at h
    rw [h.1]
    rfl

theorem noStraddle_of_no_lt {p f : List Char} (hp : p.head? = some '<')
    (hf : '<' ∉ f) : noStraddle p f = true := by
  rw [noStraddle, List.all_eq_true]
  intro i hi
  simp only [List.mem_range] at hi
  cases hd : f.drop i with
  | nil =>
    have := congrArg List.length hd
    simp only [List.length_drop, List.length_nil] at this
    omega
  | cons c rest =>
    by_cases hpre : isPre (c :: rest) p = true
    · exfalso
      cases p with
      | nil => simp at hp
      | cons x p' =>
        have hx : x = '<' := by simpa using hp
        simp only [isPre, Bool.and_eq_true, decide_eq_true_eq] at hpre
        have hc : c = '<' := hpre.1.trans hx
        apply hf
        rw [← hc]
        have hmem : c ∈ f.drop i := by
          rw [hd]
          exact List.mem_cons_self c rest
        exact List.drop_subset i f hmem
    · simp [hpre]

theorem firstMatch_none {ps : List (List Char)} {s : List Char}
    (h : ∀ p ∈ ps, isPre p s = false) : ∀ k, firstMatch ps s k = none := by
  induction ps with
  | nil => intro k; rfl
  | cons p ps ih =>
    intro k
    rw [firstMatch, h p (List.mem_cons_self p ps)]
    simp only [Bool.false_eq_true, if_false]
    exact ih (fun q hq => h q (List.mem_cons_of_mem p hq)) (k + 1)

theorem markerSeq_of_no_lt {ps : List (List Char)}
    (hp : ∀ p ∈ ps, p.head? = some '<') :
    ∀ f : List Char, '<' ∉ f → markerSeq ps f = [] := by
  intro f
  induction f with
  | nil => intro _; rfl
  | cons c rest ih =>
    intro hf
    have htests : ∀ p ∈ ps, isPre p (c :: rest) = false := by
      intro p hmem
      cases hpre : isPre p (c :: rest) with
      | false => rfl
      | true =>
        exfalso
        cases p with
        | nil => simpa using hp [] hmem
        | cons x p' =>
          have hx : x = '<' := by simpa using hp (x :: p') hmem
          have hcx := isPre_cons_head hpre
          simp only [List.head?_cons, Option.some_inj] at hcx
          have hc : c = '<' := hcx.trans hx
          subst hc
          exact hf (List.mem_cons_self _ _)
    rw [markerSeq, firstMatch_none htests 0]
    exact ih (fun hmem => hf (List.mem_cons_of_mem c hmem))

theorem head?_append_some {a : List Char} {x : Char} (b : List Char)
    (h : a.head? = some x) : (a ++ b).head? = some x := by
  cases a with
  | nil => simp at h
  | cons c l => simpa using h

theorem dropWhile_eq_self_of_head {p : Char → Bool} {s : List Char}
    (h : ∀ c, s.head? = some c → p c = false) : s.dropWhile p = s := by
  cases s with
  | nil => rfl
  | cons a l =>
    rw [List.dropWhile_cons, h a rfl]
    simp

theorem pyStrip_eq_self {s : List Char}
    (hh : ∀ c, s.head? = some c → isPySpace c = false)
    (hl : ∀ c, s.reverse.head? = some c → isPySpace c = false) :
    pyStrip s = s := by
  rw [pyStrip, dropWhile_eq_self_of_head hh, dropWhile_eq_self_of_head hl,
    List.reverse_reverse]

theorem get_ai_intro (s c n p : List Char) :
    get_ai_content (("intro").toList) s c n p =
      ("Professional ").toList ++ s ++ (" services in ").toList ++ n ++
      (", ").toList ++ c ++ (" starting from ").toList ++ p ++
      (". Our experienced team provides fast and reliable solutions for all your needs.").toList := by
  rw [get_ai_content, if_pos rfl]

theorem get_ai_expertise (s c n p : List Char) :
    get_ai_content (("expertise").toList) s c n p =
      ("With years of experience serving ").toList ++ c ++
      (" residents, our ").toList ++ s ++
      (" experts are your trusted choice in ").toList ++ n ++
      (". We combine local expertise with professional excellence to deliver outstanding results every time.").toList := by
  rw [get_ai_content, if_neg (by decide), if_pos rfl]

theorem get_ai_coverage (s c n p : List Char) :
    get_ai_content (("coverage").toList) s c n p =
      ("Our service area includes all of ").toList ++ n ++
      (" and surrounding ").toList ++ c ++
      (" neighborhoods. We\x27re strategically located to provide quick response times throughout the entire service area.").toList := by
  rw [get_ai_content, if_neg (by decide), if_neg (by decide), if_pos rfl]

theorem get_ai_cta (s c n p : List Char) :
    get_ai_content (("cta").toList) s c n p =
      ("Ready to schedule your ").toList ++ s ++
      (" service? Contact us now to get started with our professional team in ").toList ++
      n ++ (". Call today for a free consultation!").toList := by
  rw [get_ai_content, if_neg (by decide), if_neg (by decide),
    if_neg (by decide), if_pos rfl]

/-- The opening markers of the template's block kinds, and the list-item
tag: image, paragraph, heading, list, `<li>`. -/
def wpMarkers : List (List Char) :=
  [("<!-- wp:image").toList, ("<!-- wp:paragraph").toList,
   ("<!-- wp:heading").toList, ("<!-- wp:list").toList, ("<li>").toList]

/-- The closing literal of the content template. -/
def litClose : List Char :=
  (" and surrounding areas. Prices may vary depending on service requirements.</em></p>\n<!-- /wp:paragraph -->").toList

/-- The content template as a flat list of segments — template literals
interleaved with the interpolated field values — omitting the final
closing literal `litClose`. -/
def contentSegsA (service city neighborhood price_from : List Char) :
    List (List Char) :=
  [("<!-- wp:image -->\n<figure class=\"wp-block-image\">\n<img src=\"").toList,
   ("http://localpageshub.local/wp-content/uploads/2025/04/images.jpeg").toList,
   ("\" alt=\"").toList,
   service,
   (" services in ").toList,
   city,
   ("\" />\n</figure>\n<!-- /wp:image -->\n\n<!-- wp:paragraph -->\n<p>").toList,
   ("Professional ").toList,
   service,
   (" services in ").toList,
   neighborhood,
   (", ").toList,
   city,
   (" starting from ").toList,
   price_from,
   (". Our experienced team provides fast and reliable solutions for all your needs.").toList,
   ("</p>\n<!-- /wp:paragraph -->\n\n<!-- wp:heading -->\n<h2>Expert ").toList,
   service,
   (" Services in ").toList,
   neighborhood,
   ("</h2>\n<!-- /wp:heading -->\n\n<!-- wp:paragraph -->\n<p>").toList,
   ("With years of experience serving ").toList,
   city,
   (" residents, our ").toList,
   service,
   (" experts are your trusted choice in ").toList,
   neighborhood,
   (". We combine local expertise with professional excellence to deliver outstanding results every time.").toList,
   ("</p>\n<!-- /wp:paragraph -->\n\n<!-- wp:heading -->\n<h2>Why Choose Our Services</h2>\n<!-- /wp:heading -->\n\n<!-- wp:list -->\n<ul>\n<li>Starting from ").toList,
   price_from,
   ("</li>\n<li>Licensed and certified professionals</li>\n<li>24/7 emergency service availability</li>\n<li>Same-day appointments available</li>\n<li>Serving ").toList,
   neighborhood,
   (" and surrounding areas</li>\n<li>100% satisfaction guaranteed</li>\n</ul>\n<!-- /wp:list -->\n\n<!-- wp:heading -->\n<h2>Service Area Coverage</h2>\n<!-- /wp:heading -->\n\n<!-- wp:paragraph -->\n<p>").toList,
   ("Our service area includes all of ").toList,
   neighborhood,
   (" and surrounding ").toList,
   city,
   (" neighborhoods. We\x27re strategically located to provide quick response times throughout the entire service area.").toList,
   ("</p>\n<!-- /wp:paragraph -->\n\n<!-- wp:heading -->\n<h2>Schedule Your Service Today</h2>\n<!-- /wp:heading -->\n\n<!-- wp:paragraph -->\n<p>").toList,
   ("Ready to schedule your ").toList,
   service,
   (" service? Contact us now to get started with our professional team in ").toList,
   neighborhood,
   (". Call today for a free consultation!").toList,
   ("</p>\n<!-- /wp:paragraph -->\n\n<!-- wp:paragraph -->\n<p><em>*Service available in ").toList,
   neighborhood,
   (", ").toList,
   city]

theorem create_page_content_segs (service city neighborhood price_from : List Char) :
    create_page_content service city neighborhood price_from =
      pyStrip ((contentSegsA service city neighborhood price_from).flatten ++
        litClose) := by
  rw [create_page_content]
  simp only [get_ai_intro, get_ai_expertise, get_ai_coverage, get_ai_cta,
    get_service_image_url, contentSegsA, litClose, List.flatten_cons,
    List.flatten_nil, List.append_nil, List.append_assoc]

theorem wpMarkers_heads : ∀ p ∈ wpMarkers, p.head? = some '<' := by decide

theorem wpMarkers_field {f : List Char} (hf : '<' ∉ f) :
    ∀ p ∈ wpMarkers, noStraddle p f = true :=
  fun p hp => noStraddle_of_no_lt (wpMarkers_heads p hp) hf

theorem markerSeq_single_field (p f : List Char) (hph : p.head? = some '<')
    (hf : '<' ∉ f) : markerSeq [p] f = [] :=
  markerSeq_of_no_lt
    (fun q hq => by rw [List.mem_singleton.1 hq]; exact hph) f hf

theorem contentSegs_cond (service city neighborhood price_from : List Char)
    (hs : '<' ∉ service) (hc : '<' ∉ city) (hn : '<' ∉ neighborhood)
    (hp : '<' ∉ price_from) :
    ∀ s ∈ contentSegsA service city neighborhood price_from ++ [litClose],
      ∀ p ∈ wpMarkers, noStraddle p s = true := by
  intro s hmem
  simp only [contentSegsA, litClose, List.mem_append, List.mem_cons,
    List.not_mem_nil, or_false] at hmem
  rcases hmem with hmem | rfl
  · rcases hmem with rfl|rfl|rfl|rfl|rfl|rfl|rfl|rfl|rfl|rfl|rfl|rfl|rfl|rfl|rfl|rfl|rfl|rfl|rfl|rfl|rfl|rfl|rfl|rfl|rfl|rfl|rfl|rfl|rfl|rfl|rfl|rfl|rfl|rfl|rfl|rfl|rfl|rfl|rfl|rfl|rfl|rfl|rfl|rfl|rfl|rfl|rfl|rfl <;>
      first
        | exact wpMarkers_field hs
        | exact wpMarkers_field hc
        | exact wpMarkers_field hn
        | exact wpMarkers_field hp
        | decide
  · decide

theorem content_strip_eq (service city neighborhood price_from : List Char) :
    pyStrip ((contentSegsA service city neighborhood price_from).flatten ++
        litClose) =
      (contentSegsA service city neighborhood price_from).flatten ++ litClose := by
  apply pyStrip_eq_self
  · intro c hcc
    have h0 : ((contentSegsA service city neighborhood price_from).flatten ++
        litClose).head? = some '<' := by
      rw [contentSegsA, List.flatten_cons, List.append_assoc]
      exact head?_append_some _ (by decide)
    have hceq : '<' = c := Option.some.inj (h0.symm.trans hcc)
    rw [← hceq]
    decide
  · intro c hcc
    have h0 : ((contentSegsA service city neighborhood price_from).flatten ++
        litClose).reverse.head? = some '>' := by
      rw [List.reverse_append]
      exact head?_append_some _ (by decide)
    have hceq : '>' = c := Option.some.inj (h0.symm.trans hcc)
    rw [← hceq]
    decide

/-- C5 counterexample: the claim quantifies over every input quadruple,
but a field may itself contain block markup: with
`service = "<!-- wp:heading"` the rendered content contains 9 heading
markers (the template's 4 plus the 5 interpolation sites of `service`),
not exactly 4. -/
theorem C5_counterexample :
    countOcc (("<!-- wp:heading").toList)
      (create_page_content (("<!-- wp:heading").toList) (("Austin").toList)
        (("Downtown").toList) (("$50").toList)) = 9 ∧ (9 : Nat) ≠ 4 := by
  constructor
  · decide
  · decide

/-- C5 (amended): for every input quadruple whose fields contain no `<`
character, the rendered content consists, in fixed order, of exactly one
image block, then the five paragraph blocks (the four template paragraph
groups plus the closing paragraph), four heading blocks and one list
block with six `<li>` items — witnessed by the full sequence of opening
markers in text order — and exactly one image marker, five paragraph
markers, four heading markers, one list marker and six `<li>` tags occur
in total; the whole document equals its own strip (leading and trailing
whitespace removed). -/
theorem C5_content_renderer (service city neighborhood price_from : List Char)
    (hs : '<' ∉ service) (hc : '<' ∉ city) (hn : '<' ∉ neighborhood)
    (hp : '<' ∉ price_from) :
    markerSeq wpMarkers
        (create_page_content service city neighborhood price_from) =
      [0, 1, 2, 1, 2, 3, 4, 4, 4, 4, 4, 4, 2, 1, 2, 1, 1] ∧
    countOcc (("<!-- wp:image").toList)
      (create_page_content service city neighborhood price_from) = 1 ∧
    countOcc (("<!-- wp:paragraph").toList)
      (create_page_content service city neighborhood price_from) = 5 ∧
    countOcc (("<!-- wp:heading").toList)
      (create_page_content service city neighborhood price_from) = 4 ∧
    countOcc (("<!-- wp:list").toList)
      (create_page_content service city neighborhood price_from) = 1 ∧
    countOcc (("<li>").toList)
      (create_page_content service city neighborhood price_from) = 6 ∧
    pyStrip (create_page_content service city neighborhood price_from) =
      create_page_content service city neighborhood price_from := by
  have hcond := contentSegs_cond service city neighborhood price_from hs hc hn hp
  have hflat : (contentSegsA service city neighborhood price_from ++
      [litClose]).flatten =
      (contentSegsA service city neighborhood price_from).flatten ++ litClose := by
    rw [List.flatten_append]
    simp
  have hcontent : create_page_content service city neighborhood price_from =
      (contentSegsA service city neighborhood price_from ++ [litClose]).flatten := by
    rw [create_page_content_segs, hflat,
      content_strip_eq service city neighborhood price_from]
  have hcount : ∀ p ∈ wpMarkers,
      countOcc p (create_page_content service city neighborhood price_from) =
        ((contentSegsA service city neighborhood price_from ++ [litClose]).map
          (markerSeq [p])).flatten.length := by
    intro p hpm
    rw [countOcc, hcontent, markerSeq_flatten [p] _
      (fun s hsm q hq => by rw [List.mem_singleton.1 hq]; exact hcond s hsm p hpm)]
  refine ⟨?_, ?_, ?_, ?_, ?_, ?_, ?_⟩
  · have f1 : markerSeq wpMarkers service = [] :=
      markerSeq_of_no_lt wpMarkers_heads service hs
    have f2 : markerSeq wpMarkers city = [] :=
      markerSeq_of_no_lt wpMarkers_heads city hc
    have f3 : markerSeq wpMarkers neighborhood = [] :=
      markerSeq_of_no_lt wpMarkers_heads neighborhood hn
    have f4 : markerSeq wpMarkers price_from = [] :=
      markerSeq_of_no_lt wpMarkers_heads price_from hp
    rw [hcontent, markerSeq_flatten wpMarkers _ hcond]
    simp only [contentSegsA, litClose, List.map_append, List.map_cons,
      List.map_nil, f1, f2, f3, f4]
    decide
  · have e1 : markerSeq [("<!-- wp:image").toList] service = [] :=
      markerSeq_single_field _ _ (by decide) hs
    have e2 : markerSeq [("<!-- wp:image").toList] city = [] :=
      markerSeq_single_field _ _ (by decide) hc
    have e3 : markerSeq [("<!-- wp:image").toList] neighborhood = [] :=
      markerSeq_single_field _ _ (by decide) hn
    have e4 : markerSeq [("<!-- wp:image").toList] price_from = [] :=
      markerSeq_single_field _ _ (by decide) hp
    rw [hcount _ (by decide)]
    simp only [contentSegsA, litClose, List.map_append, List.map_cons,
      List.map_nil, e1, e2, e3, e4]
    decide
  · have e1 : markerSeq [("<!-- wp:paragraph").toList] service = [] :=
      markerSeq_single_field _ _ (by decide) hs
    have e2 : markerSeq [("<!-- wp:paragraph").toList] city = [] :=
      markerSeq_single_field _ _ (by decide) hc
    have e3 : markerSeq [("<!-- wp:paragraph").toList] neighborhood = [] :=
      markerSeq_single_field _ _ (by decide) hn
    have e4 : markerSeq [("<!-- wp:paragraph").toList] price_from = [] :=
      markerSeq_single_field _ _ (by decide) hp
    rw [hcount _ (by decide)]
    simp only [contentSegsA, litClose, List.map_append, List.map_cons,
      List.map_nil, e1, e2, e3, e4]
    decide
  · have e1 : markerSeq [("<!-- wp:heading").toList] service = [] :=
      markerSeq_single_field _ _ (by decide) hs
    have e2 : markerSeq [("<!-- wp:heading").toList] city = [] :=
      markerSeq_single_field _ _ (by decide) hc
    have e3 : markerSeq [("<!-- wp:heading").toList] neighborhood = [] :=
      markerSeq_single_field _ _ (by decide) hn
    have e4 : markerSeq [("<!-- wp:heading").toList] price_from = [] :=
      markerSeq_single_field _ _ (by decide) hp
    rw [hcount _ (by decide)]
    simp only [contentSegsA, litClose, List.map_append, List.map_cons,
      List.map_nil, e1, e2, e3, e4]
    decide
  · have e1 : markerSeq [("<!-- wp:list").toList] service = [] :=
      markerSeq_single_field _ _ (by decide) hs
    have e2 : markerSeq [("<!-- wp:list").toList] city = [] :=
      markerSeq_single_field _ _ (by decide) hc
    have e3 : markerSeq [("<!-- wp:list").toList] neighborhood = [] :=
      markerSeq_single_field _ _ (by decide) hn
    have e4 : markerSeq [("<!-- wp:list").toList] price_from = [] :=
      markerSeq_single_field _ _ (by decide) hp
    rw [hcount _ (by decide)]
    simp only [contentSegsA, litClose, List.map_append, List.map_cons,
      List.map_nil, e1, e2, e3, e4]
    decide
  · have e1 : markerSeq [("<li>").toList] service = [] :=
      markerSeq_single_field _ _ (by decide) hs
    have e2 : markerSeq [("<li>").toList] city = [] :=
      markerSeq_single_field _ _ (by decide) hc
    have e3 : markerSeq [("<li>").toList] neighborhood = [] :=
      markerSeq_single_field _ _ (by decide) hn
    have e4 : markerSeq [("<li>").toList] price_from = [] :=
      markerSeq_single_field _ _ (by decide) hp
    rw [hcount _ (by decide)]
    simp only [contentSegsA, litClose, List.map_append, List.map_cons,
      List.map_nil, e1, e2, e3, e4]
    decide
  · rw [hcontent, hflat]
    exact content_strip_eq service city neighborhood price_from

/-- C5 witness: the marker sequence on concrete marker-free fields. -/
theorem C5_content_renderer_witness :
    ('<' ∉ (("Plumbing").toList)) ∧
    markerSeq wpMarkers
        (create_page_content (("Plumbing").toList) (("Austin").toList)
          (("Downtown").toList) (("$50").toList)) =
      [0, 1, 2, 1, 2, 3, 4, 4, 4, 4, 4, 4, 2, 1, 2, 1, 1] :=
  ⟨by decide,
   (C5_content_renderer (("Plumbing").toList) (("Austin").toList)
      (("Downtown").toList) (("$50").toList)
      (by decide) (by decide) (by decide) (by decide)).1⟩

/-- The block-comment terminator `-->`. -/
def arrow : List Char := ("-->").toList

/-- The block separator `<!-- /wp:` on which `clean_html_content`
splits. -/
def sepWp : List Char := ("<!-- /wp:").toList

/-- Python `s.replace('  ', ' ')`: left-to-right, non-overlapping. -/
def replaceDoubleSpace : List Char → List Char
  | ' ' :: ' ' :: rest => ' ' :: replaceDoubleSpace rest
  | c :: rest => c :: replaceDoubleSpace rest
  | [] => []

/-- Python `s.replace('\n\n\n', '\n\n')`: left-to-right,
non-overlapping. -/
def replaceTripleNl : List Char → List Char
  | '\n' :: '\n' :: '\n' :: rest => '\n' :: '\n' :: replaceTripleNl rest
  | c :: rest => c :: replaceTripleNl rest
  | [] => []

/-- The body normalization of `clean_html_content` (lines 109-114):
strip, collapse doubled spaces, collapse tripled newlines. -/
def cleanBody (block_content : List Char) : List Char :=
  replaceTripleNl (replaceDoubleSpace (pyStrip block_content))

/-- One block of `clean_html_content`'s loop (lines 96-118): a blank
block is dropped; a block with no `-->` is dropped; otherwise the part
before the first `-->` is stripped as the comment, the rest (rejoined on
`-->`) is normalized as the body, and the block is reassembled as
`comment ++ "-->" ++ body`. -/
def cleanBlock (block : List Char) : Option (List Char) :=
  if (pyStrip block).isEmpty then none
  else
    match pySplit arrow block with
    | p0 :: r1 :: rest =>
      some (pyStrip p0 ++ arrow ++ cleanBody (pyJoin arrow (r1 :: rest)))
    | _ => none

/-- `clean_html_content` (lines 90-126): split on `<!-- /wp:`, clean
each block, and reassemble appending `<!-- /wp:` after each kept
block. -/
def clean_html_content (content : List Char) : List Char :=
  ((pySplit sepWp content).filterMap cleanBlock).foldl
    (fun result block => if block.isEmpty then result else result ++ block ++ sepWp)
    []

/-- Does `p` occur as a contiguous substring of the second argument?
(Recursive scan; equivalent to `occursInB`, in a shape convenient for
induction.) -/
def hasRun (p : List Char) : List Char → Bool
  | [] => false
  | c :: rest => isPre p (c :: rest) || hasRun p rest

/-- Two spaces. -/
def twoSpaces : List Char := [' ', ' ']

/-- Three spaces. -/
def threeSpaces : List Char := [' ', ' ', ' ']

/-- Three newlines. -/
def threeNl : List Char := ['\n', '\n', '\n']

/-- Four newlines. -/
def fourNl : List Char := ['\n', '\n', '\n', '\n']

/-- Well-formedness of one block for idempotence of the post-process:
its body has no three consecutive spaces and no four consecutive
newlines, and the cleaned block does not contain the block separator. -/
def blockOk (block : List Char) : Bool :=
  match pySplit arrow block with
  | p0 :: r1 :: rest =>
    !(hasRun threeSpaces (pyJoin arrow (r1 :: rest))) &&
    !(hasRun fourNl (pyJoin arrow (r1 :: rest))) &&
    !(hasRun sepWp
      (pyStrip p0 ++ arrow ++ cleanBody (pyJoin arrow (r1 :: rest))))
  | _ => true

/-- Well-formedness of a whole content string: every block is OK. -/
def cleanWF (content : List Char) : Bool :=
  (pySplit sepWp content).all blockOk

theorem replDSp_two (rest : List Char) :
    replaceDoubleSpace (' ' :: ' ' :: rest) = ' ' :: replaceDoubleSpace rest :=
  rfl

theorem replDSp_cons (c : Char) (rest : List Char)
    (h : ∀ r : List Char, c = ' ' → rest = ' ' :: r → False) :
    replaceDoubleSpace (c :: rest) = c :: replaceDoubleSpace rest :=
  replaceDoubleSpace.eq_2 c rest h

theorem replTNl_three (rest : List Char) :
    replaceTripleNl ('\n' :: '\n' :: '\n' :: rest) =
      '\n' :: '\n' :: replaceTripleNl rest :=
  rfl

theorem replTNl_cons (c : Char) (rest : List Char)
    (h : ∀ r : List Char, c = '\n' → rest = '\n' :: '\n' :: r → False) :
    replaceTripleNl (c :: rest) = c :: replaceTripleNl rest :=
  replaceTripleNl.eq_2 c rest h

theorem hasRun_nil (p : List Char) : hasRun p [] = false := rfl

theorem hasRun_cons (p : List Char) (c : Char) (rest : List Char) :
    hasRun p (c :: rest) = (isPre p (c :: rest) || hasRun p rest) :=
  rfl

theorem hasRun_tail {p : List Char} {c : Char} {rest : List Char}
    (h : hasRun p (c :: rest) = false) : hasRun p rest = false :=
  (Bool.or_eq_false_iff.1 h).2

theorem isPre_false_of_hasRun_false {p s : List Char} (hp : p ≠ [])
    (h : hasRun p s = false) : isPre p s = false := by
  cases s with
  | nil =>
    cases p with
    | nil => exact absurd rfl hp
    | cons x q => rfl
  | cons c rest => exact (Bool.or_eq_false_iff.1 h).1

theorem isPre_sp_replDSp (s : List Char) :
    isPre [' '] (replaceDoubleSpace s) = isPre [' '] s := by
  induction s using replaceDoubleSpace.induct with
  | case1 rest ih => rw [replDSp_two]; simp [isPre]
  | case2 c rest h ih => rw [replDSp_cons c rest h]; simp [isPre]
  | case3 => rfl

theorem isPre_nl_replTNl (s : List Char) :
    isPre ['\n'] (replaceTripleNl s) = isPre ['\n'] s := by
  induction s using replaceTripleNl.induct with
  | case1 rest ih => rw [replTNl_three]; simp [isPre]
  | case2 c rest h ih => rw [replTNl_cons c rest h]; simp [isPre]
  | case3 => rfl

theorem isPre_nl2_replTNl (s : List Char) :
    isPre ['\n', '\n'] (replaceTripleNl s) = isPre ['\n', '\n'] s := by
  induction s using replaceTripleNl.induct with
  | case1 rest ih => rw [replTNl_three]; simp [isPre]
  | case2 c rest h ih =>
    rw [replTNl_cons c rest h]
    show (decide ('\n' = c) && isPre ['\n'] (replaceTripleNl rest)) =
      (decide ('\n' = c) && isPre ['\n'] rest)
    rw [isPre_nl_replTNl]
  | case3 => rfl

theorem isPre_nospace_replDSp (s : List Char) :
    ∀ p : List Char, ' ' ∉ p →
      isPre p (replaceDoubleSpace s) = isPre p s := by
  induction s using replaceDoubleSpace.induct with
  | case1 rest ih =>
    intro p hp
    rw [replDSp_two]
    cases p with
    | nil => rfl
    | cons x q =>
      have hx : x ≠ ' ' := fun h => hp (h ▸ List.mem_cons_self x q)
      show (decide (x = ' ') && _) = (decide (x = ' ') && _)
      simp [hx]
  | case2 c rest h ih =>
    intro p hp
    rw [replDSp_cons c rest h]
    cases p with
    | nil => rfl
    | cons x q =>
      show (decide (x = c) && isPre q (replaceDoubleSpace rest)) =
        (decide (x = c) && isPre q rest)
      rw [ih q (fun hm => hp (List.mem_cons_of_mem x hm))]
  | case3 => intro p _; rfl

theorem isPre_nonl_replTNl (s : List Char) :
    ∀ p : List Char, '\n' ∉ p →
      isPre p (replaceTripleNl s) = isPre p s := by
  induction s using replaceTripleNl.induct with
  | case1 rest ih =>
    intro p hp
    rw [replTNl_three]
    cases p with
    | nil => rfl
    | cons x q =>
      have hx : x ≠ '\n' := fun h => hp (h ▸ List.mem_cons_self x q)
      show (decide (x = '\n') && _) = (decide (x = '\n') && _)
      simp [hx]
  | case2 c rest h ih =>
    intro p hp
    rw [replTNl_cons c rest h]
    cases p with
    | nil => rfl
    | cons x q =>
      show (decide (x = c) && isPre q (replaceTripleNl rest)) =
        (decide (x = c) && isPre q rest)
      rw [ih q (fun hm => hp (List.mem_cons_of_mem x hm))]
  | case3 => intro p _; rfl

theorem replDSp_eq_nil_iff (s : List Char) :
    replaceDoubleSpace s = [] ↔ s = [] := by
  induction s using replaceDoubleSpace.induct with
  | case1 rest ih => rw [replDSp_two]; simp
  | case2 c rest h ih => rw [replDSp_cons c rest h]; simp
  | case3 => simp [replaceDoubleSpace]

theorem replTNl_eq_nil_iff (s : List Char) :
    replaceTripleNl s = [] ↔ s = [] := by
  induction s using replaceTripleNl.induct with
  | case1 rest ih => rw [replTNl_three]; simp
  | case2 c rest h ih => rw [replTNl_cons c rest h]; simp
  | case3 => simp [replaceTripleNl]

theorem getLast?_cons_ne {a : Char} {l : List Char} (h : l ≠ []) :
    (a :: l).getLast? = l.getLast? := by
  cases l with
  | nil => exact absurd rfl h
  | cons b t => exact List.getLast?_cons_cons

theorem getLast?_replDSp (s : List Char) :
    (replaceDoubleSpace s).getLast? = s.getLast? := by
  induction s using replaceDoubleSpace.induct with
  | case1 rest ih =>
    rw [replDSp_two]
    cases hrest : rest with
    | nil => rfl
    | cons d rest' =>
      subst hrest
      have hne : replaceDoubleSpace (d :: rest') ≠ [] := fun hnil => by
        simpa using (replDSp_eq_nil_iff _).1 hnil
      calc (' ' :: replaceDoubleSpace (d :: rest')).getLast?
          = (replaceDoubleSpace (d :: rest')).getLast? := getLast?_cons_ne hne
        _ = (d :: rest').getLast? := ih
        _ = (' ' :: ' ' :: d :: rest').getLast? := by
            have hR : (' ' :: ' ' :: d :: rest').getLast? =
                (d :: rest').getLast? := by
              rw [getLast?_cons_ne (by simp), getLast?_cons_ne (by simp)]
            exact hR.symm
  | case2 c rest h ih =>
    rw [replDSp_cons c rest h]
    cases hrest : rest with
    | nil => rfl
    | cons d rest' =>
      subst hrest
      have hne : replaceDoubleSpace (d :: rest') ≠ [] := fun hnil => by
        simpa using (replDSp_eq_nil_iff _).1 hnil
      calc (c :: replaceDoubleSpace (d :: rest')).getLast?
          = (replaceDoubleSpace (d :: rest')).getLast? := getLast?_cons_ne hne
        _ = (d :: rest').getLast? := ih
        _ = (c :: d :: rest').getLast? := by
            have hR : (c :: d :: rest').getLast? = (d :: rest').getLast? := by
              rw [getLast?_cons_ne (by simp)]
            exact hR.symm
  | case3 => rfl

theorem getLast?_replTNl (s : List Char) :
    (replaceTripleNl s).getLast? = s.getLast? := by
  induction s using replaceTripleNl.induct with
  | case1 rest ih =>
    rw [replTNl_three]
    cases hrest : rest with
    | nil => rfl
    | cons d rest' =>
      subst hrest
      have hne : replaceTripleNl (d :: rest') ≠ [] := fun hnil => by
        simpa using (replTNl_eq_nil_iff _).1 hnil
      calc ('\n' :: '\n' :: replaceTripleNl (d :: rest')).getLast?
          = ('\n' :: replaceTripleNl (d :: rest')).getLast? :=
            getLast?_cons_ne (by simp)
        _ = (replaceTripleNl (d :: rest')).getLast? := getLast?_cons_ne hne
        _ = (d :: rest').getLast? := ih
        _ = ('\n' :: '\n' :: '\n' :: d :: rest').getLast? := by
            have hR : ('\n' :: '\n' :: '\n' :: d :: rest').getLast? =
                (d :: rest').getLast? := by
              rw [getLast?_cons_ne (by simp), getLast?_cons_ne (by simp),
                getLast?_cons_ne (by simp)]
            exact hR.symm
  | case2 c rest h ih =>
    rw [replTNl_cons c rest h]
    cases hrest : rest with
    | nil => rfl
    | cons d rest' =>
      subst hrest
      have hne : replaceTripleNl (d :: rest') ≠ [] := fun hnil => by
        simpa using (replTNl_eq_nil_iff _).1 hnil
      calc (c :: replaceTripleNl (d :: rest')).getLast?
          = (replaceTripleNl (d :: rest')).getLast? := getLast?_cons_ne hne
        _ = (d :: rest').getLast? := ih
        _ = (c :: d :: rest').getLast? := by
            have hR : (c :: d :: rest').getLast? = (d :: rest').getLast? := by
              rw [getLast?_cons_ne (by simp)]
            exact hR.symm
  | case3 => rfl

theorem isPre_longer_false {x : Char} {q s : List Char}
    (h : isPre [x] s = false) : isPre (x :: q) s = false := by
  cases s with
  | nil => rfl
  | cons c t =>
    have hx : decide (x = c) = false := by
      simpa [isPre] using h
    simp [isPre, hx]

theorem replTNl_eq_self {s : List Char} (h : hasRun threeNl s = false) :
    replaceTripleNl s = s := by
  induction s using replaceTripleNl.induct with
  | case1 rest ih =>
    exfalso
    rw [hasRun_cons] at h
    simp [isPre, threeNl] at h
  | case2 c rest hno ih => rw [replTNl_cons c rest hno, ih (hasRun_tail h)]
  | case3 => rfl

theorem replDSp_eq_self {s : List Char} (h : hasRun twoSpaces s = false) :
    replaceDoubleSpace s = s := by
  induction s using replaceDoubleSpace.induct with
  | case1 rest ih =>
    exfalso
    rw [hasRun_cons] at h
    simp [isPre, twoSpaces] at h
  | case2 c rest hno ih => rw [replDSp_cons c rest hno, ih (hasRun_tail h)]
  | case3 => rfl

theorem noDD_replDSp {s : List Char} (h3 : hasRun threeSpaces s = false) :
    hasRun twoSpaces (replaceDoubleSpace s) = false := by
  induction s using replaceDoubleSpace.induct with
  | case1 rest ih =>
    rw [replDSp_two, hasRun_cons]
    have hsp : isPre [' '] rest = false := by
      have h0 : isPre threeSpaces (' ' :: ' ' :: rest) = false :=
        isPre_false_of_hasRun_false (by simp [threeSpaces]) h3
      simpa [isPre, threeSpaces] using h0
    have hfst : isPre twoSpaces (' ' :: replaceDoubleSpace rest) = false := by
      have hr : isPre [' '] (replaceDoubleSpace rest) = false := by
        rw [isPre_sp_replDSp]
        exact hsp
      simpa [isPre, twoSpaces] using hr
    rw [hfst, ih (hasRun_tail (hasRun_tail h3))]
    rfl
  | case2 c rest hno ih =>
    rw [replDSp_cons c rest hno, hasRun_cons]
    have hfst : isPre twoSpaces (c :: replaceDoubleSpace rest) = false := by
      have heq : isPre twoSpaces (c :: replaceDoubleSpace rest) =
          isPre twoSpaces (c :: rest) := by
        simp only [twoSpaces, isPre]
        rw [isPre_sp_replDSp]
      rw [heq]
      cases hpre : isPre twoSpaces (c :: rest) with
      | false => rfl
      | true =>
        exfalso
        have hsh := eq_append_of_isPre hpre
        simp only [twoSpaces, List.cons_append, List.nil_append,
          List.cons.injEq] at hsh
        exact hno _ hsh.1 hsh.2
    rw [hfst, ih (hasRun_tail h3)]
    rfl
  | case3 => rfl

theorem noDD_replTNl {s : List Char} (h : hasRun twoSpaces s = false) :
    hasRun twoSpaces (replaceTripleNl s) = false := by
  induction s using replaceTripleNl.induct with
  | case1 rest ih =>
    rw [replTNl_three, hasRun_cons, hasRun_cons]
    have h1 : isPre twoSpaces ('\n' :: '\n' :: replaceTripleNl rest) = false := by
      simp [isPre, twoSpaces]
    have h2 : isPre twoSpaces ('\n' :: replaceTripleNl rest) = false := by
      simp [isPre, twoSpaces]
    rw [h1, h2, ih (hasRun_tail (hasRun_tail (hasRun_tail h)))]
    rfl
  | case2 c rest hno ih =>
    rw [replTNl_cons c rest hno, hasRun_cons]
    have hfst : isPre twoSpaces (c :: replaceTripleNl rest) = false := by
      have heq : isPre twoSpaces (c :: replaceTripleNl rest) =
          isPre twoSpaces (c :: rest) := by
        simp only [twoSpaces, isPre]
        rw [isPre_nonl_replTNl rest [' '] (by simp)]
      rw [heq]
      exact (Bool.or_eq_false_iff.1 h).1
    rw [hfst, ih (hasRun_tail h)]
    rfl
  | case3 => rfl

theorem no4nl_replDSp {s : List Char} (h : hasRun fourNl s = false) :
    hasRun fourNl (replaceDoubleSpace s) = false := by
  induction s using replaceDoubleSpace.induct with
  | case1 rest ih =>
    rw [replDSp_two, hasRun_cons]
    have h1 : isPre fourNl (' ' :: replaceDoubleSpace rest) = false := by
      simp [isPre, fourNl]
    rw [h1, ih (hasRun_tail (hasRun_tail h))]
    rfl
  | case2 c rest hno ih =>
    rw [replDSp_cons c rest hno, hasRun_cons]
    have hfst : isPre fourNl (c :: replaceDoubleSpace rest) = false := by
      have heq : isPre fourNl (c :: replaceDoubleSpace rest) =
          isPre fourNl (c :: rest) := by
        simp only [fourNl, isPre]
        rw [isPre_nospace_replDSp rest ['\n', '\n', '\n'] (by simp)]
      rw [heq]
      exact (Bool.or_eq_false_iff.1 h).1
    rw [hfst, ih (hasRun_tail h)]
    rfl
  | case3 => rfl

theorem no3nl_replTNl {s : List Char} (h : hasRun fourNl s = false) :
    hasRun threeNl (replaceTripleNl s) = false := by
  induction s using replaceTripleNl.induct with
  | case1 rest ih =>
    rw [replTNl_three, hasRun_cons, hasRun_cons]
    have hnl : isPre ['\n'] rest = false := by
      have h0 : isPre fourNl ('\n' :: '\n' :: '\n' :: rest) = false :=
        isPre_false_of_hasRun_false (by simp [fourNl]) h
      simpa [isPre, fourNl] using h0
    have h1 : isPre threeNl ('\n' :: '\n' :: replaceTripleNl rest) = false := by
      have hr : isPre ['\n'] (replaceTripleNl rest) = false := by
        rw [isPre_nl_replTNl]
        exact hnl
      simpa [isPre, threeNl] using hr
    have h2 : isPre threeNl ('\n' :: replaceTripleNl rest) = false := by
      have hr : isPre ['\n', '\n'] (replaceTripleNl rest) = false := by
        rw [isPre_nl2_replTNl]
        exact isPre_longer_false hnl
      simpa [isPre, threeNl] using hr
    rw [h1, h2, ih (hasRun_tail (hasRun_tail (hasRun_tail h)))]
    rfl
  | case2 c rest hno ih =>
    rw [replTNl_cons c rest hno, hasRun_cons]
    have hfst : isPre threeNl (c :: replaceTripleNl rest) = false := by
      have heq : isPre threeNl (c :: replaceTripleNl rest) =
          isPre threeNl (c :: rest) := by
        simp only [threeNl, isPre]
        rw [isPre_nl2_replTNl]
      rw [heq]
      cases hpre : isPre threeNl (c :: rest) with
      | false => rfl
      | true =>
        exfalso
        have hsh := eq_append_of_isPre hpre
        simp only [threeNl, List.cons_append, List.nil_append,
          List.cons.injEq] at hsh
        exact hno _ hsh.1 hsh.2
    rw [hfst, ih (hasRun_tail h)]
    rfl
  | case3 => rfl

theorem head?_replDSp (s : List Char) :
    (replaceDoubleSpace s).head? = s.head? := by
  induction s using replaceDoubleSpace.induct with
  | case1 rest ih => rfl
  | case2 c rest hno ih => rw [replDSp_cons c rest hno]; rfl
  | case3 => rfl

theorem head?_replTNl (s : List Char) :
    (replaceTripleNl s).head? = s.head? := by
  induction s using replaceTripleNl.induct with
  | case1 rest ih => rfl
  | case2 c rest hno ih => rw [replTNl_cons c rest hno]; rfl
  | case3 => rfl

theorem mem_dropWhile_of_not {p : Char → Bool} {l : List Char} {c : Char}
    (hc : c ∈ l) (hp : p c = false) : c ∈ l.dropWhile p := by
  have hsplit := List.takeWhile_append_dropWhile (p := p) (l := l)
  rw [← hsplit] at hc
  rcases List.mem_append.1 hc with h | h
  · have := List.mem_takeWhile_imp h
    rw [hp] at this
    exact absurd this (by simp)
  · exact h

theorem mem_pyStrip {s : List Char} {c : Char} (hc : c ∈ s)
    (hp : isPySpace c = false) : c ∈ pyStrip s := by
  rw [pyStrip]
  exact List.mem_reverse.2 (mem_dropWhile_of_not
    (List.mem_reverse.2 (mem_dropWhile_of_not hc hp)) hp)

theorem pyStrip_eq_drop_take (s : List Char) :
    ∃ n m, pyStrip s = (s.drop n).take m := by
  obtain ⟨n, hn⟩ := dropWhile_eq_drop isPySpace s
  obtain ⟨k, hk⟩ := dropWhile_eq_drop isPySpace (s.drop n).reverse
  refine ⟨n, (s.drop n).length - k, ?_⟩
  rw [pyStrip, hn, hk, List.drop_reverse, List.reverse_reverse]

theorem pyStrip_head (s : List Char) :
    ∀ c, (pyStrip s).head? = some c → isPySpace c = false := by
  intro c hc
  obtain ⟨k, hk⟩ := dropWhile_eq_drop isPySpace (s.dropWhile isPySpace).reverse
  have hrep : pyStrip s =
      (s.dropWhile isPySpace).take ((s.dropWhile isPySpace).length - k) := by
    rw [pyStrip, hk, List.drop_reverse, List.reverse_reverse]
  rw [hrep] at hc
  have hne : (s.dropWhile isPySpace).take
      ((s.dropWhile isPySpace).length - k) ≠ [] := by
    intro hnil
    rw [hnil] at hc
    simp at hc
  rw [head_take_ne_nil hne] at hc
  exact head_dropWhile_false isPySpace s c hc

theorem pyStrip_last (s : List Char) :
    ∀ c, (pyStrip s).reverse.head? = some c → isPySpace c = false := by
  intro c hc
  rw [pyStrip, List.reverse_reverse] at hc
  exact head_dropWhile_false isPySpace (s.dropWhile isPySpace).reverse c hc

theorem pyStrip_idem (s : List Char) : pyStrip (pyStrip s) = pyStrip s :=
  pyStrip_eq_self (pyStrip_head s) (pyStrip_last s)

theorem hasRun_drop {p : List Char} :
    ∀ (n : Nat) (s : List Char), hasRun p s = false →
      hasRun p (s.drop n) = false := by
  intro n
  induction n with
  | zero => intro s h; simpa using h
  | succ n ih =>
    intro s h
    cases s with
    | nil => rfl
    | cons c rest =>
      rw [List.drop_succ_cons]
      exact ih rest (hasRun_tail h)

theorem isPre_of_take {p : List Char} :
    ∀ (l : List Char) (m : Nat), isPre p (l.take m) = true →
      isPre p l = true := by
  induction p with
  | nil => intro l m _; rfl
  | cons x q ih =>
    intro l m h
    cases l with
    | nil => simp [isPre] at h
    | cons c t =>
      cases m with
      | zero => simp [isPre] at h
      | succ m =>
        rw [List.take_succ_cons] at h
        simp only [isPre, Bool.and_eq_true] at h ⊢
        exact ⟨h.1, ih t m h.2⟩

theorem hasRun_take {p : List Char} :
    ∀ (s : List Char) (m : Nat), hasRun p s = false →
      hasRun p (s.take m) = false := by
  intro s
  induction s with
  | nil => intro m _; simp [hasRun_nil]
  | cons c rest ih =>
    intro m h
    cases m with
    | zero => rfl
    | succ m =>
      rw [List.take_succ_cons, hasRun_cons]
      have h1 : isPre p (c :: rest.take m) = false := by
        cases hpre : isPre p (c :: rest.take m) with
        | false => rfl
        | true =>
          exfalso
          have : isPre p ((c :: rest).take (m + 1)) = true := by
            rw [List.take_succ_cons]
            exact hpre
          have := isPre_of_take (c :: rest) (m + 1) this
          rw [(Bool.or_eq_false_iff.1 h).1] at this
          exact absurd this (by simp)
      rw [h1, ih m (hasRun_tail h)]
      rfl

theorem hasRun_pyStrip {p s : List Char} (h : hasRun p s = false) :
    hasRun p (pyStrip s) = false := by
  obtain ⟨n, m, hrep⟩ := pyStrip_eq_drop_take s
  rw [hrep]
  exact hasRun_take _ m (hasRun_drop n s h)

theorem cleanBody_idem {body : List Char}
    (h3 : hasRun threeSpaces body = false) (h4 : hasRun fourNl body = false) :
    cleanBody (cleanBody body) = cleanBody body := by
  have h3t : hasRun threeSpaces (pyStrip body) = false := hasRun_pyStrip h3
  have h4t : hasRun fourNl (pyStrip body) = false := hasRun_pyStrip h4
  have hDD : hasRun twoSpaces (replaceDoubleSpace (pyStrip body)) = false :=
    noDD_replDSp h3t
  have h4u : hasRun fourNl (replaceDoubleSpace (pyStrip body)) = false :=
    no4nl_replDSp h4t
  have hDDc : hasRun twoSpaces (cleanBody body) = false := noDD_replTNl hDD
  have h3c : hasRun threeNl (cleanBody body) = false := no3nl_replTNl h4u
  have hhead : ∀ c, (cleanBody body).head? = some c → isPySpace c = false := by
    intro c hc
    rw [cleanBody, head?_replTNl, head?_replDSp] at hc
    exact pyStrip_head body c hc
  have hlast : ∀ c, (cleanBody body).reverse.head? = some c →
      isPySpace c = false := by
    intro c hc
    rw [List.head?_reverse, cleanBody, getLast?_replTNl, getLast?_replDSp] at hc
    apply pyStrip_last body c
    rw [List.head?_reverse]
    exact hc
  show replaceTripleNl (replaceDoubleSpace (pyStrip (cleanBody body))) =
    cleanBody body
  rw [pyStrip_eq_self hhead hlast, replDSp_eq_self hDDc, replTNl_eq_self h3c]

/-- No nonempty proper suffix of `p` is also a prefix of `p`
(`p` is border-free, so occurrences of `p` cannot straddle an
occurrence written right after other text). -/
def noBorder (p : List Char) : Bool :=
  (List.range' 1 (p.length - 1)).all fun k => !(isPre (p.drop k) p)

theorem isPre_nil_right {p : List Char} (hp : p ≠ []) : isPre p [] = false := by
  cases p with
  | nil => exact absurd rfl hp
  | cons x q => rfl

theorem hasRun_false_of_drops {p : List Char} :
    ∀ s : List Char, (∀ i, isPre p (s.drop i) = false) →
      hasRun p s = false := by
  intro s
  induction s with
  | nil => intro _; rfl
  | cons c rest ih =>
    intro h
    rw [hasRun_cons]
    have h0 := h 0
    simp only [List.drop_zero] at h0
    rw [h0, ih (fun i => by simpa [List.drop_succ_cons] using h (i + 1))]
    rfl

theorem pyJoin_cons_ne {sep x : List Char} {xs : List (List Char)}
    (h : xs ≠ []) : pyJoin sep (x :: xs) = x ++ sep ++ pyJoin sep xs := by
  cases xs with
  | nil => exact absurd rfl h
  | cons y ys => rfl

theorem pySplitF_ne_nil (sep : List Char) :
    ∀ (fuel : Nat) (acc s : List Char), pySplitF sep fuel acc s ≠ [] := by
  intro fuel
  induction fuel with
  | zero =>
    intro acc s
    cases s <;> simp [pySplitF]
  | succ f ih =>
    intro acc s
    cases s with
    | nil => simp [pySplitF]
    | cons c rest =>
      by_cases hb : sep ≠ [] ∧ isPre sep (c :: rest) = true
      · simp only [pySplitF, if_pos hb]
        simp
      · simp only [pySplitF, if_neg hb]
        exact ih _ _

theorem pySplitGo_ne_nil (sep acc s : List Char) : pySplitGo sep acc s ≠ [] :=
  pySplitF_ne_nil sep s.length acc s

theorem pySplitGo_pos' (sep acc s : List Char) (hsep : sep ≠ [])
    (hs : s ≠ []) (hp : isPre sep s = true) :
    pySplitGo sep acc s = acc :: pySplitGo sep [] (s.drop sep.length) := by
  cases s with
  | nil => exact absurd rfl hs
  | cons c rest => exact pySplitGo_pos sep acc c rest hsep hp

theorem pyJoin_pySplitGo (sep : List Char) (hsep : sep ≠ []) :
    ∀ (n : Nat) (s acc : List Char), s.length ≤ n →
      pyJoin sep (pySplitGo sep acc s) = acc ++ s := by
  intro n
  induction n with
  | zero =>
    intro s acc hlen
    cases s with
    | nil => rw [pySplitGo_nil]; simp [pyJoin]
    | cons c rest => simp at hlen
  | succ n ih =>
    intro s acc hlen
    cases s with
    | nil => rw [pySplitGo_nil]; simp [pyJoin]
    | cons c rest =>
      simp only [List.length_cons] at hlen
      by_cases hb : isPre sep (c :: rest) = true
      · have h1 : 1 ≤ sep.length := by
          cases hsepc : sep with
          | nil => exact absurd hsepc hsep
          | cons x xs => simp
        rw [pySplitGo_pos sep acc c rest hsep hb,
          pyJoin_cons_ne (pySplitGo_ne_nil _ _ _),
          ih _ [] (by simp only [List.length_drop, List.length_cons]; omega),
          List.nil_append]
        have hshape := eq_append_of_isPre hb
        rw [List.append_assoc, ← hshape]
      · rw [pySplitGo_neg sep acc c rest (fun hand => hb hand.2),
          ih rest (acc ++ [c]) (by omega)]
        simp

theorem pyJoin_pySplit (sep s : List Char) (hsep : sep ≠ []) :
    pyJoin sep (pySplit sep s) = s := by
  have := pyJoin_pySplitGo sep hsep s.length s [] le_rfl
  simpa using this

theorem pySplitGo_pieces (sep : List Char) (hsep : sep ≠ []) :
    ∀ (n : Nat) (s acc : List Char), s.length ≤ n →
      (∀ i, i < acc.length → isPre sep (acc.drop i ++ s) = false) →
      ∀ b ∈ pySplitGo sep acc s, hasRun sep b = false := by
  intro n
  induction n with
  | zero =>
    intro s acc hlen H b hb
    cases s with
    | cons c rest => simp at hlen
    | nil =>
      rw [pySplitGo_nil] at hb
      rcases List.mem_singleton.1 hb with rfl
      refine hasRun_false_of_drops b (fun i => ?_)
      rcases lt_or_le i b.length with hi | hi
      · have := H i hi
        simpa using this
      · rw [List.drop_eq_nil_of_le hi]
        exact isPre_nil_right hsep
  | succ n ih =>
    intro s acc hlen H b hb
    cases s with
    | nil =>
      rw [pySplitGo_nil] at hb
      rcases List.mem_singleton.1 hb with rfl
      refine hasRun_false_of_drops b (fun i => ?_)
      rcases lt_or_le i b.length with hi | hi
      · have := H i hi
        simpa using this
      · rw [List.drop_eq_nil_of_le hi]
        exact isPre_nil_right hsep
    | cons c rest =>
      simp only [List.length_cons] at hlen
      by_cases hbr : isPre sep (c :: rest) = true
      · have h1 : 1 ≤ sep.length := by
          cases hsepc : sep with
          | nil => exact absurd hsepc hsep
          | cons x xs => simp
        rw [pySplitGo_pos sep acc c rest hsep hbr] at hb
        rcases List.mem_cons.1 hb with rfl | hb'
        · refine hasRun_false_of_drops b (fun i => ?_)
          rcases lt_or_le i b.length with hi | hi
          · cases hpre : isPre sep (b.drop i) with
            | false => rfl
            | true =>
              exfalso
              have := isPre_append_left (c :: rest) hpre
              rw [H i hi] at this
              exact absurd this (by simp)
          · rw [List.drop_eq_nil_of_le hi]
            exact isPre_nil_right hsep
        · exact ih _ [] (by simp only [List.length_drop, List.length_cons]; omega)
            (fun i hi => absurd hi (by simp)) b hb'
      · rw [pySplitGo_neg sep acc c rest (fun hand => hbr hand.2)] at hb
        refine ih rest (acc ++ [c]) (by omega) ?_ b hb
        intro i hi
        rw [List.length_append, List.length_singleton] at hi
        rcases lt_or_le i acc.length with hlt | hge
        · rw [List.drop_append_of_le_length (le_of_lt hlt), List.append_assoc,
            List.singleton_append]
          exact H i hlt
        · have hieq : i = acc.length := by omega
          subst hieq
          rw [List.drop_append_of_le_length le_rfl, List.drop_length,
            List.nil_append, List.singleton_append]
          cases hpre : isPre sep (c :: rest) with
          | false => rfl
          | true => exact absurd hpre hbr

theorem pySplit_pieces (sep s : List Char) (hsep : sep ≠ []) :
    ∀ b ∈ pySplit sep s, hasRun sep b = false :=
  pySplitGo_pieces sep hsep s.length s [] le_rfl
    (fun i hi => absurd hi (by simp))

theorem pySplitGo_sepfree_append (sep : List Char) (hsep : sep ≠ [])
    (hnb : noBorder sep = true) :
    ∀ (c acc r : List Char), hasRun sep c = false →
      pySplitGo sep acc (c ++ (sep ++ r)) = (acc ++ c) :: pySplitGo sep [] r := by
  intro c
  induction c with
  | nil =>
    intro acc r _
    rw [List.nil_append, pySplitGo_pos' sep acc (sep ++ r) hsep
      (by cases hsepc : sep with
        | nil => exact absurd hsepc hsep
        | cons x xs => simp)
      (isPre_append_self sep r), List.drop_left]
    simp
  | cons ch c' ih =>
    intro acc r hocc
    have hni : isPre sep (ch :: (c' ++ (sep ++ r))) = false := by
      cases hpre : isPre sep (ch :: (c' ++ (sep ++ r))) with
      | false => rfl
      | true =>
        exfalso
        have hpre' : isPre sep ((ch :: c') ++ (sep ++ r)) = true := hpre
        rcases le_or_lt sep.length (ch :: c').length with hle | hlt
        · have hc := isPre_of_append hpre' hle
          have h0 : isPre sep (ch :: c') = false :=
            isPre_false_of_hasRun_false hsep hocc
          rw [h0] at hc
          exact absurd hc (by simp)
        · obtain ⟨-, hrest⟩ := isPre_append_split hpre' (le_of_lt hlt)
          have hk : isPre ((sep.drop (ch :: c').length)) sep = true := by
            apply isPre_of_append hrest
            simp only [List.length_drop]
            omega
          rw [noBorder, List.all_eq_true] at hnb
          have hkmem : (ch :: c').length ∈ List.range' 1 (sep.length - 1) := by
            rw [List.mem_range'_1]
            simp only [List.length_cons] at hlt ⊢
            omega
          have := hnb _ hkmem
          rw [hk] at this
          exact absurd this (by simp)
    rw [List.cons_append, pySplitGo_neg sep acc ch (c' ++ (sep ++ r))
      (fun hand => absurd hand.2 (by simp [hni])),
      ih (acc ++ [ch]) r (hasRun_tail hocc)]
    simp

theorem pySplit_concat (sep : List Char) (hsep : sep ≠ [])
    (hnb : noBorder sep = true) :
    ∀ cs : List (List Char), (∀ b ∈ cs, hasRun sep b = false) →
      pySplitGo sep [] ((cs.map (fun b => b ++ sep)).flatten) = cs ++ [[]] := by
  intro cs
  induction cs with
  | nil => intro _; rfl
  | cons b cs ih =>
    intro h
    rw [List.map_cons, List.flatten_cons, List.append_assoc,
      pySplitGo_sepfree_append sep hsep hnb b []
        ((cs.map (fun b => b ++ sep)).flatten) (h b (List.mem_cons_self b cs)),
      ih (fun x hx => h x (List.mem_cons_of_mem b hx))]
    simp

theorem foldl_guard (sep : List Char) :
    ∀ (l : List (List Char)) (init : List Char), (∀ b ∈ l, b ≠ []) →
      l.foldl (fun result block =>
        if block.isEmpty then result else result ++ block ++ sep) init =
        init ++ (l.map (fun b => b ++ sep)).flatten := by
  intro l
  induction l with
  | nil => intro init _; simp
  | cons b l ih =>
    intro init h
    rw [List.foldl_cons]
    have hb : b.isEmpty = false := by
      have := h b (List.mem_cons_self b l)
      cases b with
      | nil => exact absurd rfl this
      | cons x t => rfl
    rw [hb]
    simp only [Bool.false_eq_true, if_false]
    rw [ih _ (fun x hx => h x (List.mem_cons_of_mem b hx))]
    simp [List.append_assoc]

theorem filterMap_id_of_fixed {g : List Char → Option (List Char)} :
    ∀ l : List (List Char), (∀ b ∈ l, g b = some b) → l.filterMap g = l := by
  intro l
  induction l with
  | nil => intro _; rfl
  | cons b l ih =>
    intro h
    rw [List.filterMap_cons, h b (List.mem_cons_self b l),
      ih (fun x hx => h x (List.mem_cons_of_mem b hx))]

theorem cleanBlock_eq_some {b cb : List Char} (h : cleanBlock b = some cb) :
    ∃ p0 r1 rest, pySplit arrow b = p0 :: r1 :: rest ∧
      cb = pyStrip p0 ++ arrow ++ cleanBody (pyJoin arrow (r1 :: rest)) ∧
      (pyStrip b).isEmpty = false := by
  rw [cleanBlock] at h
  by_cases hstrip : (pyStrip b).isEmpty = true
  · rw [if_pos hstrip] at h
    exact absurd h (by simp)
  · rw [if_neg hstrip] at h
    cases hsp : pySplit arrow b with
    | nil => rw [hsp] at h; exact absurd h (by simp)
    | cons p0 tl =>
      cases htl : tl with
      | nil => rw [hsp, htl] at h; exact absurd h (by simp)
      | cons r1 rest =>
        rw [hsp, htl] at h
        simp only [Option.some_inj] at h
        exact ⟨p0, r1, rest, rfl, h.symm, by simpa using hstrip⟩

theorem cleanBlock_some_ne_nil {b cb : List Char} (h : cleanBlock b = some cb) :
    cb ≠ [] := by
  obtain ⟨p0, r1, rest, -, hcbeq, -⟩ := cleanBlock_eq_some h
  rw [hcbeq]
  intro hnil
  rcases List.append_eq_nil.1 hnil with ⟨hnil1, -⟩
  rcases List.append_eq_nil.1 hnil1 with ⟨-, harrow⟩
  exact absurd harrow (by decide)

theorem cleanBlock_fixed {b cb : List Char} (hok : blockOk b = true)
    (hcb : cleanBlock b = some cb) :
    cleanBlock cb = some cb ∧ hasRun sepWp cb = false ∧ cb ≠ [] := by
  obtain ⟨p0, r1, rest, hsp, hcbeq, -⟩ := cleanBlock_eq_some hcb
  rw [blockOk, hsp] at hok
  simp only [Bool.and_eq_true, Bool.not_eq_true'] at hok
  obtain ⟨⟨h3, h4⟩, hsepfree⟩ := hok
  have hsepcb : hasRun sepWp cb = false := by rw [hcbeq]; exact hsepfree
  refine ⟨?_, hsepcb, cleanBlock_some_ne_nil hcb⟩
  have harrp0 : hasRun arrow (pyStrip p0) = false := by
    apply hasRun_pyStrip
    exact pySplit_pieces arrow b (by decide) p0 (by rw [hsp]; simp)
  have hsplitcb : pySplit arrow cb =
      pyStrip p0 :: pySplit arrow (cleanBody (pyJoin arrow (r1 :: rest))) := by
    rw [hcbeq, List.append_assoc, pySplit]
    rw [pySplitGo_sepfree_append arrow (by decide) (by decide) (pyStrip p0) []
      (cleanBody (pyJoin arrow (r1 :: rest))) harrp0]
    rw [List.nil_append, pySplit]
  have hdash : ('-' : Char) ∈ cb := by
    rw [hcbeq]
    refine List.mem_append_left _ (List.mem_append_right _ ?_)
    decide
  have hstrip_ne : (pyStrip cb).isEmpty = false := by
    have hmem := mem_pyStrip hdash (by decide)
    cases hps : pyStrip cb with
    | nil => rw [hps] at hmem; simp at hmem
    | cons y ys => rfl
  rw [cleanBlock, hstrip_ne]
  simp only [Bool.false_eq_true, if_false]
  cases hbc : pySplit arrow (cleanBody (pyJoin arrow (r1 :: rest))) with
  | nil => exact absurd hbc (pySplitGo_ne_nil arrow [] _)
  | cons y ys =>
    rw [hsplitcb, hbc]
    have hjoin : pyJoin arrow (y :: ys) =
        cleanBody (pyJoin arrow (r1 :: rest)) := by
      rw [← hbc]
      exact pyJoin_pySplit arrow _ (by decide)
    show some (pyStrip (pyStrip p0) ++ arrow ++
      cleanBody (pyJoin arrow (y :: ys))) = some cb
    rw [hjoin, pyStrip_idem, cleanBody_idem h3 h4, ← hcbeq]

theorem clean_html_content_eq (x : List Char) :
    clean_html_content x =
      (((pySplit sepWp x).filterMap cleanBlock).map
        (fun b => b ++ sepWp)).flatten := by
  rw [clean_html_content,
    foldl_guard sepWp ((pySplit sepWp x).filterMap cleanBlock) []
      (fun b hb => by
        obtain ⟨a, -, ha⟩ := List.mem_filterMap.1 hb
        exact cleanBlock_some_ne_nil ha),
    List.nil_append]

/-- C6 counterexample: the post-process is not idempotent.  On the
single-paragraph content whose body contains three consecutive spaces,
the first pass collapses them to two spaces and the second pass
collapses those again, so applying the function twice differs from
applying it once. -/
theorem C6_counterexample :
    clean_html_content (clean_html_content
      (("<!-- wp:paragraph -->\n<p>a   b</p>\n<!-- /wp:paragraph -->").toList)) ≠
      clean_html_content
        (("<!-- wp:paragraph -->\n<p>a   b</p>\n<!-- /wp:paragraph -->").toList) := by
  decide

/-- C6 (amended): the post-process is idempotent on well-formed content:
whenever every block's body contains no three consecutive spaces and no
four consecutive newlines, and no cleaned block contains the block
separator `<!-- /wp:`, applying `clean_html_content` twice equals
applying it once.  The retained blocks are kept in their original order
(the output is exactly the cleaned blocks in order, each followed by the
separator) — but the boundary markers themselves are rewritten:
whitespace around the opening comment is stripped and a trailing
`<!-- /wp:` is appended, so they are not preserved verbatim. -/
theorem C6_clean_idempotent (x : List Char) (hwf : cleanWF x = true) :
    clean_html_content (clean_html_content x) = clean_html_content x ∧
    clean_html_content x =
      (((pySplit sepWp x).filterMap cleanBlock).map
        (fun b => b ++ sepWp)).flatten := by
  refine ⟨?_, clean_html_content_eq x⟩
  have hfix : ∀ cb ∈ (pySplit sepWp x).filterMap cleanBlock,
      cleanBlock cb = some cb ∧ hasRun sepWp cb = false ∧ cb ≠ [] := by
    intro cb hcb
    obtain ⟨b, hbmem, hbsome⟩ := List.mem_filterMap.1 hcb
    have hok : blockOk b = true := by
      rw [cleanWF, List.all_eq_true] at hwf
      exact hwf b hbmem
    exact cleanBlock_fixed hok hbsome
  have h1 := clean_html_content_eq x
  have hsplit2 : pySplit sepWp (clean_html_content x) =
      (pySplit sepWp x).filterMap cleanBlock ++ [[]] := by
    rw [h1, pySplit]
    exact pySplit_concat sepWp (by decide) (by decide) _
      (fun b hb => (hfix b hb).2.1)
  rw [clean_html_content_eq (clean_html_content x), hsplit2,
    List.filterMap_append]
  have hnil : List.filterMap cleanBlock [([] : List Char)] =
      ([] : List (List Char)) := by decide
  rw [hnil, List.append_nil,
    filterMap_id_of_fixed _ (fun b hb => (hfix b hb).1)]
  exact h1.symm

/-- C6 witness: a well-formed single-paragraph content on which a second
application of the post-process changes nothing. -/
theorem C6_clean_idempotent_witness :
    cleanWF (("<!-- wp:paragraph -->\n<p>a  b</p>\n<!-- /wp:paragraph -->").toList)
      = true ∧
    clean_html_content (clean_html_content
      (("<!-- wp:paragraph -->\n<p>a  b</p>\n<!-- /wp:paragraph -->").toList)) =
      clean_html_content
        (("<!-- wp:paragraph -->\n<p>a  b</p>\n<!-- /wp:paragraph -->").toList) :=
  ⟨by decide,
   (C6_clean_idempotent
     (("<!-- wp:paragraph -->\n<p>a  b</p>\n<!-- /wp:paragraph -->").toList)
     (by decide)).1⟩

end LocalPages
